import Mathlib

/-!
Shallow embedding of the balance-recalculation engine of MyLedgerApp.

Sources embedded:
  * `src/types` (via `src/lib/db.ts`): the `Party` and `LedgerEntry` records.
  * `src/lib/db.ts`: `recalculateBalancesForParty`.
  * the main app file: `AddEditEntryPage.handleSubmit` (add-with-candidate and
    edit paths) and `App.handleConfirmDelete` (entry deletion).

Modelling conventions: JavaScript numbers carrying money amounts and balances
become `Int` — the engine only ever adds, subtracts, negates and compares
amounts, so its algebra is parametric in the numeric carrier and exact integer
arithmetic keeps every concrete check decidable; `Date` values (compared via
`getTime()`) become `Int` millisecond timestamps; the Dexie store becomes a `DBState` record of two lists held in
store order; a Dexie `update` call becomes an explicit entry in a write log so
that frame properties ("which rows were written") are visible.  JavaScript's
`Array.prototype.sort` is a stable sort; it is modelled by the stable insertion
sort `stableSort` below, applied with the exact comparators of the source.
-/

inductive Direction where
  | credit
  | debit
deriving DecidableEq, Repr

inductive PartyType where
  | customer
  | supplier
deriving DecidableEq, Repr

/-- `Party` record from `src/types`. -/
structure Party where
  id : Nat
  type : PartyType
  name : String
  phone : String
  createdAt : Int
  updatedAt : Int
  balance : Int
deriving DecidableEq, Repr

/-- `LedgerEntry` record from `src/types`. -/
structure LedgerEntry where
  id : Nat
  partyId : Nat
  direction : Direction
  amount : Int
  date : Int
  note : Option String
  balanceAfter : Int
  createdAt : Int
deriving DecidableEq, Repr

/-- The two Dexie tables of `AppDB`, each in store (primary-key) order. -/
structure DBState where
  parties : List Party
  entries : List LedgerEntry
deriving DecidableEq, Repr

/-- Comparator of `sortBy('date')`: ascending by the entry date. -/
def dateLE (a b : LedgerEntry) : Bool :=
  decide (a.date ≤ b.date)

/-- Comparator `(a, b) => a.date.getTime() - b.date.getTime() ||
a.createdAt.getTime() - b.createdAt.getTime()`: `chronoLE a b` holds when the
comparator is `≤ 0`, i.e. `a` sorts before `b` or ties with it. -/
def chronoLE (a b : LedgerEntry) : Bool :=
  decide (a.date < b.date) || (decide (a.date = b.date) && decide (a.createdAt ≤ b.createdAt))

/-- Insert `e` into `l` after every element strictly below it: the position a
stable sort gives an element that precedes `l`'s elements in the input. -/
def insertLE {α : Type} (le : α → α → Bool) (e : α) : List α → List α
  | [] => [e]
  | x :: xs => if le x e && !le e x then x :: insertLE le e xs else e :: x :: xs

/-- Stable insertion sort, modelling JavaScript's stable `Array.prototype.sort`
with comparator `le` (`le a b` ↔ comparator result `≤ 0`). -/
def stableSort {α : Type} (le : α → α → Bool) : List α → List α
  | [] => []
  | x :: xs => insertLE le x (stableSort le xs)

/-- `db.entries.where({ partyId })`: the entries of one party, in store order. -/
def entriesOf (pid : Nat) (s : DBState) : List LedgerEntry :=
  s.entries.filter (fun e => decide (e.partyId = pid))

/-- `entry.direction === 'credit' ? entry.amount : -entry.amount`. -/
def signedAmount (e : LedgerEntry) : Int :=
  if e.direction = Direction.credit then e.amount else -e.amount

/-- The running balance left after folding the signed amounts of `l` over the
starting value `acc`. -/
def runningTotal (acc : Int) (l : List LedgerEntry) : Int :=
  l.foldl (fun a e => a + signedAmount e) acc

/-- One iteration of the `for (const entry of entries)` loop of
`recalculateBalancesForParty`: bump the running balance and record an update
for the entry when its stored `balanceAfter` disagrees. -/
def recalcStep (st : Int × List (Nat × Int)) (e : LedgerEntry) : Int × List (Nat × Int) :=
  if e.balanceAfter = st.1 + signedAmount e then (st.1 + signedAmount e, st.2)
  else (st.1 + signedAmount e, st.2 ++ [(e.id, st.1 + signedAmount e)])

/-- The whole loop of `recalculateBalancesForParty`: running balance starts at
`0`, the update list starts empty. -/
def recalcLoop (l : List LedgerEntry) : Int × List (Nat × Int) :=
  l.foldl recalcStep (0, [])

/-- Effect of the single pending write `db.entries.update(u.1, { balanceAfter := u.2 })`
on one entry. -/
def applyUpd (e : LedgerEntry) (u : Nat × Int) : LedgerEntry :=
  if e.id = u.1 then { e with balanceAfter := u.2 } else e

/-- Effect of a whole update list on one entry. -/
def applyUpds (us : List (Nat × Int)) (e : LedgerEntry) : LedgerEntry :=
  us.foldl applyUpd e

/-- Effect of a whole update list on the entries table. -/
def applyEntryUpdates (us : List (Nat × Int)) (es : List LedgerEntry) : List LedgerEntry :=
  us.foldl (fun acc u => acc.map (fun e => applyUpd e u)) es

/-- `db.parties.get(partyId)`: first party with the given id. -/
def getParty (s : DBState) (pid : Nat) : Option Party :=
  s.parties.find? (fun p => decide (p.id = pid))

/-- `db.parties.update(partyId, { balance, updatedAt })`. -/
def updatePartyBalance (pid : Nat) (b : Int) (now : Int) (ps : List Party) : List Party :=
  ps.map (fun p => if p.id = pid then { p with balance := b, updatedAt := now } else p)

/-- Result of one recalculation pass: the committed database state together
with the write log (entry updates issued, and the party write if any). -/
structure RecalcResult where
  state : DBState
  entryWrites : List (Nat × Int)
  partyWrite : Option Int
deriving DecidableEq, Repr

/-- The entry sequence `recalculateBalancesForParty` iterates over:
`…where({partyId}).sortBy('date').then(items => items.sort(byDateThenCreatedAt))`. -/
def sortedEntries (pid : Nat) (s : DBState) : List LedgerEntry :=
  stableSort chronoLE (stableSort dateLE (entriesOf pid s))

/-- `recalculateBalancesForParty` from `src/lib/db.ts`.  `now` is the clock
value used for `new Date()` when the party row is written.  Note the source
never throws here: when `db.parties.get` finds nothing both conditional
branches are skipped and the transaction commits with whatever entry updates
were queued. -/
def recalculateBalancesForParty (pid : Nat) (now : Int) (s : DBState) : RecalcResult :=
  let entries := sortedEntries pid s
  let res := recalcLoop entries
  let entries' := applyEntryUpdates res.2 s.entries
  match getParty s pid with
  | some party =>
      if party.balance ≠ res.1 then
        { state := { parties := updatePartyBalance pid res.1 now s.parties, entries := entries' },
          entryWrites := res.2, partyWrite := some res.1 }
      else if entries.isEmpty then
        { state := { parties := updatePartyBalance pid 0 now s.parties, entries := entries' },
          entryWrites := res.2, partyWrite := some 0 }
      else
        { state := { parties := s.parties, entries := entries' },
          entryWrites := res.2, partyWrite := none }
  | none =>
      { state := { parties := s.parties, entries := entries' },
        entryWrites := res.2, partyWrite := none }

/-- The candidate object built by `AddEditEntryPage.handleSubmit` before
insertion: temp id `0`, provisional `balanceAfter` `0`, `createdAt := now`. -/
def mkCandidate (pid : Nat) (amount : Int) (direction : Direction)
    (note : Option String) (date : Int) (now : Int) : LedgerEntry :=
  { id := 0, partyId := pid, direction := direction, amount := amount,
    date := date, note := note, balanceAfter := 0, createdAt := now }

/-- One iteration of the loop in the add path of `handleSubmit`.  State is
(running balance, queued updates, candidate `balanceAfter`): the entry with the
temp id `0` gets its `balanceAfter` set in place, other entries are queued for
update when their stored `balanceAfter` disagrees. -/
def addStep (st : Int × List (Nat × Int) × Int) (e : LedgerEntry) : Int × List (Nat × Int) × Int :=
  if e.id = 0 then (st.1 + signedAmount e, st.2.1, st.1 + signedAmount e)
  else if e.balanceAfter = st.1 + signedAmount e then (st.1 + signedAmount e, st.2.1, st.2.2)
  else (st.1 + signedAmount e, st.2.1 ++ [(e.id, st.1 + signedAmount e)], st.2.2)

/-- Result of the add-with-candidate transaction: committed state, the entry
updates issued for pre-existing entries, and the inserted entry. -/
structure AddResult where
  state : DBState
  entryWrites : List (Nat × Int)
  newEntry : LedgerEntry
deriving DecidableEq, Repr

/-- The add path of `AddEditEntryPage.handleSubmit`: guard on the amount, then
one transaction that throws "Party not found" for a missing party, sorts the
existing entries by date, appends the candidate, sorts everything by
(date, createdAt), walks the running balance, queues updates for changed
entries, inserts the candidate (Dexie assigns it `newId`), and writes the
party aggregate unconditionally. -/
def addEntry (pid : Nat) (amount : Int) (direction : Direction) (note : Option String)
    (date : Int) (now : Int) (newId : Nat) (s : DBState) : Except String AddResult :=
  if amount ≤ 0 then Except.error "invalid amount"
  else
    match getParty s pid with
    | none => Except.error "Party not found"
    | some _ =>
        let cand := mkCandidate pid amount direction note date now
        let allEntries := stableSort chronoLE (stableSort dateLE (entriesOf pid s) ++ [cand])
        let res := allEntries.foldl addStep (0, [], 0)
        let newEntry := { cand with id := newId, balanceAfter := res.2.2 }
        Except.ok
          { state := { parties := updatePartyBalance pid res.1 now s.parties,
                       entries := applyEntryUpdates res.2.1 s.entries ++ [newEntry] },
            entryWrites := res.2.1, newEntry := newEntry }

/-- The edit path of `handleSubmit`: `db.entries.update(entryId, { amount,
direction, note, date })` — exactly these four fields are replaced. -/
def editEntryUpdate (eid : Nat) (amount : Int) (direction : Direction)
    (note : Option String) (date : Int) (es : List LedgerEntry) : List LedgerEntry :=
  es.map (fun e =>
    if e.id = eid then { e with amount := amount, direction := direction, note := note, date := date }
    else e)

/-- `db.entries.delete(entryId)` from `App.handleConfirmDelete`. -/
def deleteEntry (eid : Nat) (s : DBState) : DBState :=
  { s with entries := s.entries.filter (fun e => decide (e.id ≠ eid)) }

/-- One edit request (the four writable fields of the edit form). -/
structure EditOp where
  entryId : Nat
  amount : Int
  direction : Direction
  note : Option String
  date : Int
deriving DecidableEq, Repr

/-- A sequence of edit requests applied in order. -/
def applyEdits (ops : List EditOp) (es : List LedgerEntry) : List LedgerEntry :=
  ops.foldl (fun acc op => editEntryUpdate op.entryId op.amount op.direction op.note op.date acc) es

/-- Rewrite every `balanceAfter` of `l` to the running balance at its position,
starting from `acc`: the canonical shape of a correctly balanced ledger. -/
def assignBalances (acc : Int) : List LedgerEntry → List LedgerEntry
  | [] => []
  | e :: rest =>
      { e with balanceAfter := acc + signedAmount e } :: assignBalances (acc + signedAmount e) rest

/-- `balanceAfter` of the last entry, or `0` for an empty ledger. -/
def lastBalance (l : List LedgerEntry) : Int :=
  match l.getLast? with
  | some e => e.balanceAfter
  | none => 0

/-- The ledger invariant of the specification for one party: sorted by
(date, createdAt) with the source's tie handling, every entry's `balanceAfter`
is the running balance at its position, and the stored party balance (when the
party exists) is the last entry's `balanceAfter`, or `0` with no entries. -/
def ledgerInvariant (pid : Nat) (s : DBState) : Bool :=
  decide (sortedEntries pid s = assignBalances 0 (sortedEntries pid s)) &&
    (match getParty s pid with
     | some p => decide (p.balance = lastBalance (sortedEntries pid s))
     | none => true)

/-- The update list produced by the recalculation loop over `l` starting at
running balance `acc`: one record per entry whose stored `balanceAfter`
disagrees with the recomputed value. -/
def changes (acc : Int) : List LedgerEntry → List (Nat × Int)
  | [] => []
  | e :: rest =>
      (if e.balanceAfter = acc + signedAmount e then [] else [(e.id, acc + signedAmount e)])
        ++ changes (acc + signedAmount e) rest

/-- The update list produced by the add-path loop: as `changes` but the temp-id
`0` candidate is never queued. -/
def addChanges (acc : Int) : List LedgerEntry → List (Nat × Int)
  | [] => []
  | e :: rest =>
      (if e.id = 0 then []
       else if e.balanceAfter = acc + signedAmount e then []
       else [(e.id, acc + signedAmount e)]) ++ addChanges (acc + signedAmount e) rest

/-- The candidate `balanceAfter` assigned by the add-path loop: the running
balance at the last position holding the temp id `0` (default `d`). -/
def candBA (acc d : Int) : List LedgerEntry → Int
  | [] => d
  | e :: rest => candBA (acc + signedAmount e) (if e.id = 0 then acc + signedAmount e else d) rest

/-- Total credits of a list of entries. -/
def sumCredits (l : List LedgerEntry) : Int :=
  ((l.filter (fun e => decide (e.direction = Direction.credit))).map LedgerEntry.amount).sum

/-- Total debits of a list of entries. -/
def sumDebits (l : List LedgerEntry) : Int :=
  ((l.filter (fun e => decide (e.direction = Direction.debit))).map LedgerEntry.amount).sum

/-- An entry with its `balanceAfter` blanked: two entries agree under
`eraseBalance` exactly when they differ at most in `balanceAfter`. -/
def eraseBalance (e : LedgerEntry) : LedgerEntry :=
  { e with balanceAfter := 0 }

/-- Two elements tied under the comparator: the stable part of the order. -/
def tiedB {α : Type} (le : α → α → Bool) (a x : α) : Bool :=
  le a x && le x a

/-- Insert `c` after every element weakly below it: the position a stable sort
gives an element appended at the end of the input. -/
def insertWeak {α : Type} (le : α → α → Bool) (c : α) : List α → List α
  | [] => [c]
  | x :: xs => if le x c then x :: insertWeak le c xs else c :: x :: xs

/-- Replace the temp id `0` (the sentinel of the add path) by the id the store
assigns on insertion. -/
def assignId (n : Nat) (e : LedgerEntry) : LedgerEntry :=
  if e.id = 0 then { e with id := n } else e

/-- The sequence the add path of `handleSubmit` iterates over: persisted
entries sorted by date, candidate appended, everything sorted by
(date, createdAt). -/
def addSorted (pid : Nat) (amount : Int) (direction : Direction) (note : Option String)
    (date now : Int) (s : DBState) : List LedgerEntry :=
  stableSort chronoLE
    (stableSort dateLE (entriesOf pid s) ++ [mkCandidate pid amount direction note date now])


/-! ### Concrete sample data used by witnesses and counterexamples -/

/-- A sample party (id 1, balance 0). -/
def sampleParty : Party :=
  { id := 1, type := PartyType.customer, name := "P", phone := "5551234",
    createdAt := 0, updatedAt := 0, balance := 0 }

/-- Credit 100 on day 10 (spec scenario entry A). -/
def sampleEntryA : LedgerEntry :=
  { id := 1, partyId := 1, direction := Direction.credit, amount := 100, date := 10,
    note := none, balanceAfter := 100, createdAt := 1 }

/-- Debit 30 on day 30 (spec scenario entry B). -/
def sampleEntryB : LedgerEntry :=
  { id := 2, partyId := 1, direction := Direction.debit, amount := 30, date := 30,
    note := none, balanceAfter := 70, createdAt := 2 }

/-- The spec scenario state after entries A and B: balance 70. -/
def sampleState : DBState :=
  { parties := [{ sampleParty with balance := 70 }], entries := [sampleEntryA, sampleEntryB] }

/-- A party with no entries and balance already 0. -/
def emptyPartyState : DBState :=
  { parties := [sampleParty], entries := [] }

/-- An entry whose `partyId` refers to no stored party. -/
def orphanEntry : LedgerEntry :=
  { id := 1, partyId := 1, direction := Direction.credit, amount := 5, date := 0,
    note := none, balanceAfter := 0, createdAt := 0 }

/-- A state with one entry and no matching party record. -/
def missingPartyState : DBState :=
  { parties := [], entries := [orphanEntry] }

/-- A state holding exactly one entry of party 1 (entry id 2). -/
def singleEntryState : DBState :=
  { parties := [{ sampleParty with balance := -30 }],
    entries := [{ sampleEntryB with balanceAfter := -30 }] }

/-- Two entries of the same day differing only in `createdAt`. -/
def sameDayEntryA : LedgerEntry :=
  { id := 1, partyId := 1, direction := Direction.credit, amount := 10, date := 10,
    note := none, balanceAfter := 10, createdAt := 1 }

/-- Second entry of the same day. -/
def sameDayEntryB : LedgerEntry :=
  { id := 2, partyId := 1, direction := Direction.debit, amount := 4, date := 10,
    note := none, balanceAfter := 6, createdAt := 2 }

/-- The same-day pair. -/
def sameDayEntries : List LedgerEntry :=
  [sameDayEntryA, sameDayEntryB]

/-- A sample edit request: re-date entry 1 and change its amount. -/
def sampleEdit : EditOp :=
  { entryId := 1, amount := 25, direction := Direction.debit,
    note := some "edited", date := 10 }

/-- Result of adding the back-dated scenario entry C (credit 20 on day 20)
to `sampleState`. -/
def backdatedAddResult : AddResult :=
  { state :=
      { parties := [{ sampleParty with updatedAt := 3, balance := 90 }],
        entries := [sampleEntryA, { sampleEntryB with balanceAfter := 90 },
          { id := 3, partyId := 1, direction := Direction.credit, amount := 20, date := 20,
            note := none, balanceAfter := 120, createdAt := 3 }] },
    entryWrites := [(2, 90)],
    newEntry := { id := 3, partyId := 1, direction := Direction.credit, amount := 20,
                  date := 20, note := none, balanceAfter := 120, createdAt := 3 } }

/-- Result of adding an entry dated after everything (credit 20 on day 40)
to `sampleState`. -/
def appendAddResult : AddResult :=
  { state :=
      { parties := [{ sampleParty with updatedAt := 3, balance := 90 }],
        entries := [sampleEntryA, sampleEntryB,
          { id := 3, partyId := 1, direction := Direction.credit, amount := 20, date := 40,
            note := none, balanceAfter := 90, createdAt := 3 }] },
    entryWrites := [],
    newEntry := { id := 3, partyId := 1, direction := Direction.credit, amount := 20,
                  date := 40, note := none, balanceAfter := 90, createdAt := 3 } }

/-! ### Generic facts about the stable sort -/

theorem insertLE_perm {α : Type} (le : α → α → Bool) (e : α) (l : List α) :
    (insertLE le e l).Perm (e :: l) := by
  induction l with
  | nil => exact List.Perm.refl _
  | cons x xs ih =>
      simp only [insertLE]
      split
      · exact (ih.cons x).trans (List.Perm.swap e x xs)
      · exact List.Perm.refl _

theorem stableSort_perm {α : Type} (le : α → α → Bool) (l : List α) :
    (stableSort le l).Perm l := by
  induction l with
  | nil => exact List.Perm.refl _
  | cons x xs ih => exact (insertLE_perm le x (stableSort le xs)).trans (ih.cons x)

theorem mem_insertLE {α : Type} {le : α → α → Bool} {e y : α} {l : List α}
    (h : y ∈ insertLE le e l) : y = e ∨ y ∈ l := by
  have := (insertLE_perm le e l).mem_iff.mp h
  simpa using this

theorem pairwise_insertLE {α : Type} {le : α → α → Bool}
    (htot : ∀ a b, le a b = true ∨ le b a = true)
    (htrans : ∀ a b c, le a b = true → le b c = true → le a c = true)
    {e : α} {l : List α} (h : l.Pairwise (fun a b => le a b = true)) :
    (insertLE le e l).Pairwise (fun a b => le a b = true) := by
  induction l with
  | nil => simp [insertLE]
  | cons x xs ih =>
      rw [List.pairwise_cons] at h
      simp only [insertLE]
      split
      · rename_i hcond
        rw [Bool.and_eq_true, Bool.not_eq_true'] at hcond
        rw [List.pairwise_cons]
        refine ⟨?_, ih h.2⟩
        intro y hy
        rcases mem_insertLE hy with rfl | hy'
        · exact hcond.1
        · exact h.1 y hy'
      · rename_i hcond
        rw [Bool.and_eq_true, Bool.not_eq_true'] at hcond
        push_neg at hcond
        rw [List.pairwise_cons]
        have hex : le e x = true := by
          rcases htot e x with h' | h'
          · exact h'
          · have himp : le x e = true → le e x = true := by simpa using hcond
            exact himp h'
        refine ⟨?_, List.pairwise_cons.mpr h⟩
        intro y hy
        rcases List.mem_cons.mp hy with rfl | hy'
        · exact hex
        · exact htrans e x y hex (h.1 y hy')

theorem pairwise_stableSort {α : Type} {le : α → α → Bool}
    (htot : ∀ a b, le a b = true ∨ le b a = true)
    (htrans : ∀ a b c, le a b = true → le b c = true → le a c = true)
    (l : List α) :
    (stableSort le l).Pairwise (fun a b => le a b = true) := by
  induction l with
  | nil => simp [stableSort]
  | cons x xs ih => exact pairwise_insertLE htot htrans ih

theorem stableSort_eq_of_pairwise {α : Type} {le : α → α → Bool} {l : List α}
    (h : l.Pairwise (fun a b => le a b = true)) : stableSort le l = l := by
  induction l with
  | nil => rfl
  | cons x xs ih =>
      rw [List.pairwise_cons] at h
      simp only [stableSort, ih h.2]
      cases xs with
      | nil => rfl
      | cons y ys =>
          have hxy : le x y = true := h.1 y (List.mem_cons_self _ _)
          simp [insertLE, hxy]

theorem insertLE_map {α : Type} {le : α → α → Bool} (f : α → α)
    (hf : ∀ a b, le (f a) (f b) = le a b) (e : α) (l : List α) :
    insertLE le (f e) (l.map f) = (insertLE le e l).map f := by
  induction l with
  | nil => rfl
  | cons x xs ih =>
      simp only [List.map_cons, insertLE, hf]
      split
      · simp [ih]
      · simp

theorem stableSort_map {α : Type} {le : α → α → Bool} (f : α → α)
    (hf : ∀ a b, le (f a) (f b) = le a b) (l : List α) :
    stableSort le (l.map f) = (stableSort le l).map f := by
  induction l with
  | nil => rfl
  | cons x xs ih => simp only [List.map_cons, stableSort, ih, insertLE_map f hf]

theorem tiedB_comm {α : Type} (le : α → α → Bool) (a x : α) :
    tiedB le a x = tiedB le x a := by
  simp [tiedB, Bool.and_comm]

theorem tiedB_self {α : Type} {le : α → α → Bool}
    (htot : ∀ a b, le a b = true ∨ le b a = true) (a : α) : tiedB le a a = true := by
  have : le a a = true := by rcases htot a a with h | h <;> exact h
  simp [tiedB, this]

theorem filter_insertLE_of_tied {α : Type} {le : α → α → Bool}
    (htrans : ∀ a b c, le a b = true → le b c = true → le a c = true)
    {a e : α} (h : tiedB le a e = true) (l : List α) :
    (insertLE le e l).filter (tiedB le a) = e :: l.filter (tiedB le a) := by
  rw [tiedB, Bool.and_eq_true] at h
  induction l with
  | nil => simp [insertLE, tiedB, h.1, h.2]
  | cons x xs ih =>
      simp only [insertLE]
      split
      · rename_i hcond
        rw [Bool.and_eq_true, Bool.not_eq_true'] at hcond
        have hax : tiedB le a x = false := by
          cases hx : tiedB le a x with
          | false => rfl
          | true =>
              rw [tiedB, Bool.and_eq_true] at hx
              have : le e x = true := htrans e a x h.2 hx.1
              rw [hcond.2] at this
              exact absurd this (by simp)
        simp only [List.filter_cons, hax]
        simp only [Bool.false_eq_true, if_false, ih]
      · simp only [List.filter_cons, tiedB, h.1, h.2]
        simp

theorem filter_insertLE_of_not_tied {α : Type} {le : α → α → Bool}
    {a e : α} (h : tiedB le a e = false) (l : List α) :
    (insertLE le e l).filter (tiedB le a) = l.filter (tiedB le a) := by
  induction l with
  | nil => simp [insertLE, h]
  | cons x xs ih =>
      simp only [insertLE]
      split
      · simp only [List.filter_cons, ih]
      · simp only [List.filter_cons, h]
        simp

theorem stableSort_filter_tied {α : Type} {le : α → α → Bool}
    (htrans : ∀ a b c, le a b = true → le b c = true → le a c = true)
    (a : α) (l : List α) :
    (stableSort le l).filter (tiedB le a) = l.filter (tiedB le a) := by
  induction l with
  | nil => rfl
  | cons x xs ih =>
      simp only [stableSort]
      cases hx : tiedB le a x with
      | true =>
          rw [filter_insertLE_of_tied htrans hx, ih, List.filter_cons, hx]
          simp
      | false => rw [filter_insertLE_of_not_tied hx, ih, List.filter_cons, hx]; simp

theorem eq_of_sorted_of_filter_tied {α : Type} {le : α → α → Bool}
    (htot : ∀ a b, le a b = true ∨ le b a = true)
    (htrans : ∀ a b c, le a b = true → le b c = true → le a c = true) :
    ∀ (m₁ m₂ : List α), m₁.Pairwise (fun a b => le a b = true) →
      m₂.Pairwise (fun a b => le a b = true) →
      (∀ a, m₁.filter (tiedB le a) = m₂.filter (tiedB le a)) → m₁ = m₂ := by
  intro m₁
  induction m₁ with
  | nil =>
      intro m₂ _ _ hf
      cases m₂ with
      | nil => rfl
      | cons y ys =>
          have := hf y
          rw [List.filter_cons, tiedB_self htot y] at this
          simp at this
  | cons x xs ih =>
      intro m₂ h₁ h₂ hf
      cases m₂ with
      | nil =>
          have := hf x
          rw [List.filter_cons, tiedB_self htot x] at this
          simp at this
      | cons y ys =>
          rw [List.pairwise_cons] at h₁ h₂
          have hxy : x = y := by
            have hfx := hf x
            rw [List.filter_cons, List.filter_cons, tiedB_self htot x] at hfx
            simp only [if_true] at hfx
            cases hxy' : tiedB le x y with
            | true =>
                rw [hxy'] at hfx
                simp at hfx
                exact hfx.1
            | false =>
                -- then x appears in ys, so le y x; symmetric argument gives le x y,
                -- contradicting non-tiedness
                rw [hxy', if_neg Bool.false_ne_true] at hfx
                have hxmem : x ∈ ys := by
                  have : x ∈ ys.filter (tiedB le x) := by
                    rw [← hfx]
                    exact List.mem_cons_self _ _
                  exact List.mem_of_mem_filter this
                have hyx : le y x = true := h₂.1 x hxmem
                have hfy := hf y
                rw [List.filter_cons, List.filter_cons, tiedB_self htot y] at hfy
                simp only [if_true] at hfy
                rw [tiedB_comm le y x, hxy', if_neg Bool.false_ne_true] at hfy
                have hymem : y ∈ xs := by
                  have : y ∈ xs.filter (tiedB le y) := by
                    rw [hfy]
                    exact List.mem_cons_self _ _
                  exact List.mem_of_mem_filter this
                have hxy2 : le x y = true := h₁.1 y hymem
                have : tiedB le x y = true := by rw [tiedB, Bool.and_eq_true]; exact ⟨hxy2, hyx⟩
                rw [this] at hxy'
                exact absurd hxy' (by simp)
          subst hxy
          have htails : xs = ys := by
            apply ih ys h₁.2 h₂.2
            intro a
            have := hf a
            rw [List.filter_cons, List.filter_cons] at this
            cases hax : tiedB le a x with
            | true => rw [hax] at this; simp only [if_true] at this; simpa using this
            | false => rw [hax] at this; simpa using this
          rw [htails]

theorem stableSort_congr {α : Type} {le : α → α → Bool}
    (htot : ∀ a b, le a b = true ∨ le b a = true)
    (htrans : ∀ a b c, le a b = true → le b c = true → le a c = true)
    {l₁ l₂ : List α}
    (hf : ∀ a, l₁.filter (tiedB le a) = l₂.filter (tiedB le a)) :
    stableSort le l₁ = stableSort le l₂ := by
  apply eq_of_sorted_of_filter_tied htot htrans _ _
    (pairwise_stableSort htot htrans l₁) (pairwise_stableSort htot htrans l₂)
  intro a
  rw [stableSort_filter_tied htrans a l₁, stableSort_filter_tied htrans a l₂]
  exact hf a

theorem insertWeak_perm {α : Type} (le : α → α → Bool) (c : α) (l : List α) :
    (insertWeak le c l).Perm (c :: l) := by
  induction l with
  | nil => exact List.Perm.refl _
  | cons x xs ih =>
      simp only [insertWeak]
      split
      · exact (ih.cons x).trans (List.Perm.swap c x xs)
      · exact List.Perm.refl _

theorem filter_insertWeak_of_tied {α : Type} {le : α → α → Bool}
    (htrans : ∀ a b c, le a b = true → le b c = true → le a c = true)
    {a c : α} (h : tiedB le a c = true) :
    ∀ (m : List α), m.Pairwise (fun a b => le a b = true) →
      (insertWeak le c m).filter (tiedB le a) = m.filter (tiedB le a) ++ [c] := by
  rw [tiedB, Bool.and_eq_true] at h
  intro m
  induction m with
  | nil =>
      intro _
      simp [insertWeak, tiedB, h.1, h.2]
  | cons x xs ih =>
      intro hs
      rw [List.pairwise_cons] at hs
      simp only [insertWeak]
      split
      · rw [List.filter_cons, List.filter_cons]
        cases hax : tiedB le a x with
        | true => simp [hax, ih hs.2]
        | false => simp [hax, ih hs.2]
      · rename_i hxc
        rw [Bool.not_eq_true] at hxc
        have hnil : (x :: xs).filter (tiedB le a) = [] := by
          rw [List.filter_eq_nil_iff]
          intro b hb htied
          rw [tiedB, Bool.and_eq_true] at htied
          have hbc : le b c = true := htrans b a c htied.2 h.1
          have hxb : le x c = true := by
            rcases List.mem_cons.mp hb with rfl | hb'
            · exact hbc
            · exact htrans x b c (hs.1 b hb') hbc
          rw [hxc] at hxb
          exact absurd hxb (by simp)
        have htac : tiedB le a c = true := by
          rw [tiedB, Bool.and_eq_true]; exact ⟨h.1, h.2⟩
        rw [List.filter_cons, htac, hnil]
        simp

theorem filter_insertWeak_of_not_tied {α : Type} {le : α → α → Bool}
    {a c : α} (h : tiedB le a c = false) (m : List α) :
    (insertWeak le c m).filter (tiedB le a) = m.filter (tiedB le a) := by
  induction m with
  | nil => simp [insertWeak, h]
  | cons x xs ih =>
      simp only [insertWeak]
      split
      · rw [List.filter_cons, List.filter_cons]
        cases hax : tiedB le a x with
        | true => simp [ih]
        | false => simp [ih]
      · rw [List.filter_cons, h, List.filter_cons]
        simp

theorem pairwise_insertWeak {α : Type} {le : α → α → Bool}
    (htot : ∀ a b, le a b = true ∨ le b a = true)
    (htrans : ∀ a b c, le a b = true → le b c = true → le a c = true)
    {c : α} {m : List α} (h : m.Pairwise (fun a b => le a b = true)) :
    (insertWeak le c m).Pairwise (fun a b => le a b = true) := by
  induction m with
  | nil => simp [insertWeak]
  | cons x xs ih =>
      rw [List.pairwise_cons] at h
      simp only [insertWeak]
      split
      · rename_i hxc
        rw [List.pairwise_cons]
        refine ⟨?_, ih h.2⟩
        intro y hy
        rcases List.mem_cons.mp ((insertWeak_perm le c xs).mem_iff.mp hy) with rfl | hy'
        · exact hxc
        · exact h.1 y hy'
      · rename_i hxc
        rw [Bool.not_eq_true] at hxc
        have hcx : le c x = true := by
          rcases htot c x with h' | h'
          · exact h'
          · rw [hxc] at h'; exact absurd h' (by simp)
        rw [List.pairwise_cons]
        refine ⟨?_, List.pairwise_cons.mpr h⟩
        intro y hy
        rcases List.mem_cons.mp hy with rfl | hy'
        · exact hcx
        · exact htrans c x y hcx (h.1 y hy')

theorem dateLE_total : ∀ a b : LedgerEntry, dateLE a b = true ∨ dateLE b a = true := by
  intro a b
  simp only [dateLE, decide_eq_true_eq]
  omega

theorem dateLE_trans : ∀ a b c : LedgerEntry,
    dateLE a b = true → dateLE b c = true → dateLE a c = true := by
  intro a b c
  simp only [dateLE, decide_eq_true_eq]
  omega

theorem chronoLE_total : ∀ a b : LedgerEntry, chronoLE a b = true ∨ chronoLE b a = true := by
  intro a b
  simp only [chronoLE, Bool.or_eq_true, Bool.and_eq_true, decide_eq_true_eq]
  omega

theorem chronoLE_trans : ∀ a b c : LedgerEntry,
    chronoLE a b = true → chronoLE b c = true → chronoLE a c = true := by
  intro a b c
  simp only [chronoLE, Bool.or_eq_true, Bool.and_eq_true, decide_eq_true_eq]
  omega

theorem tiedB_chrono_imp_date (a x : LedgerEntry) :
    tiedB chronoLE a x = true → tiedB dateLE a x = true := by
  simp only [tiedB, chronoLE, dateLE, Bool.and_eq_true, Bool.or_eq_true, decide_eq_true_eq]
  omega

theorem filter_filter_of_imp {α : Type} {p q : α → Bool}
    (h : ∀ x, p x = true → q x = true) (l : List α) :
    (l.filter q).filter p = l.filter p := by
  induction l with
  | nil => rfl
  | cons x xs ih =>
      cases hq : q x with
      | true =>
          rw [List.filter_cons, hq]
          simp only [if_true]
          rw [List.filter_cons, List.filter_cons]
          cases hp : p x <;> simp [ih]
      | false =>
          have hp : p x = false := by
            cases hp : p x with
            | false => rfl
            | true => rw [h x hp] at hq; exact absurd hq (by simp)
          rw [List.filter_cons, hq, List.filter_cons, hp]
          simp [ih]

theorem filter_tied_chrono_sortDate (a : LedgerEntry) (l : List LedgerEntry) :
    (stableSort dateLE l).filter (tiedB chronoLE a) = l.filter (tiedB chronoLE a) := by
  have himp : ∀ x, tiedB chronoLE a x = true → tiedB dateLE a x = true :=
    fun x => tiedB_chrono_imp_date a x
  calc (stableSort dateLE l).filter (tiedB chronoLE a)
      = ((stableSort dateLE l).filter (tiedB dateLE a)).filter (tiedB chronoLE a) :=
        (filter_filter_of_imp himp _).symm
    _ = (l.filter (tiedB dateLE a)).filter (tiedB chronoLE a) := by
        rw [stableSort_filter_tied dateLE_trans]
    _ = l.filter (tiedB chronoLE a) := filter_filter_of_imp himp l

/-- Pre-sorting by date alone does not change the result of the full stable
sort by (date, createdAt): the two-pass sort of the source is one stable sort. -/
theorem sortChrono_sortDate (l : List LedgerEntry) :
    stableSort chronoLE (stableSort dateLE l) = stableSort chronoLE l :=
  stableSort_congr chronoLE_total chronoLE_trans
    (fun a => filter_tied_chrono_sortDate a l)

theorem sortedEntries_eq (pid : Nat) (s : DBState) :
    sortedEntries pid s = stableSort chronoLE (entriesOf pid s) := by
  rw [sortedEntries, sortChrono_sortDate]

theorem sortChrono_append_sortDate (l : List LedgerEntry) (c : LedgerEntry) :
    stableSort chronoLE (stableSort dateLE l ++ [c]) = stableSort chronoLE (l ++ [c]) := by
  apply stableSort_congr chronoLE_total chronoLE_trans
  intro a
  rw [List.filter_append, List.filter_append, filter_tied_chrono_sortDate]

/-- Stable-sorting with one element appended is inserting that element after
all weakly-smaller elements of the sorted rest. -/
theorem sortChrono_append (l : List LedgerEntry) (c : LedgerEntry) :
    stableSort chronoLE (l ++ [c]) = insertWeak chronoLE c (stableSort chronoLE l) := by
  apply eq_of_sorted_of_filter_tied chronoLE_total chronoLE_trans
  · exact pairwise_stableSort chronoLE_total chronoLE_trans _
  · exact pairwise_insertWeak chronoLE_total chronoLE_trans
      (pairwise_stableSort chronoLE_total chronoLE_trans l)
  · intro a
    rw [stableSort_filter_tied chronoLE_trans, List.filter_append]
    cases hac : tiedB chronoLE a c with
    | true =>
        rw [filter_insertWeak_of_tied chronoLE_trans hac _
          (pairwise_stableSort chronoLE_total chronoLE_trans l),
          stableSort_filter_tied chronoLE_trans]
        rw [List.filter_cons, hac]
        simp
    | false =>
        rw [filter_insertWeak_of_not_tied hac, stableSort_filter_tied chronoLE_trans]
        rw [List.filter_cons, hac]
        simp

theorem insertWeak_eq_take_drop {α : Type} (le : α → α → Bool) (c : α) (m : List α) :
    insertWeak le c m
      = m.takeWhile (fun x => le x c) ++ c :: m.dropWhile (fun x => le x c) := by
  induction m with
  | nil => rfl
  | cons x xs ih =>
      simp only [insertWeak]
      split
      · rename_i hxc
        rw [List.takeWhile_cons, List.dropWhile_cons]
        simp [hxc, ih]
      · rename_i hxc
        rw [Bool.not_eq_true] at hxc
        rw [List.takeWhile_cons, List.dropWhile_cons]
        simp [hxc]

/-! ### Running balances, the recalculation loop, and reconciliation -/

theorem runningTotal_nil (acc : Int) : runningTotal acc [] = acc := rfl

theorem runningTotal_cons (acc : Int) (e : LedgerEntry) (l : List LedgerEntry) :
    runningTotal acc (e :: l) = runningTotal (acc + signedAmount e) l := rfl

theorem runningTotal_append (acc : Int) (xs ys : List LedgerEntry) :
    runningTotal acc (xs ++ ys) = runningTotal (runningTotal acc xs) ys := by
  simp [runningTotal, List.foldl_append]

theorem length_assignBalances (acc : Int) (l : List LedgerEntry) :
    (assignBalances acc l).length = l.length := by
  induction l generalizing acc with
  | nil => rfl
  | cons e rest ih => simp [assignBalances, ih]

theorem assignBalances_append (acc : Int) (xs ys : List LedgerEntry) :
    assignBalances acc (xs ++ ys)
      = assignBalances acc xs ++ assignBalances (runningTotal acc xs) ys := by
  induction xs generalizing acc with
  | nil => rfl
  | cons e rest ih => simp [assignBalances, ih, runningTotal_cons]

theorem runningTotal_assignBalances (a : Int) (l : List LedgerEntry) :
    ∀ b : Int, runningTotal a (assignBalances b l) = runningTotal a l := by
  induction l generalizing a with
  | nil => intro b; rfl
  | cons e rest ih =>
      intro b
      rw [assignBalances, runningTotal_cons, runningTotal_cons]
      have hsig : signedAmount { e with balanceAfter := b + signedAmount e } = signedAmount e := rfl
      rw [hsig]
      exact ih (a + signedAmount e) (b + signedAmount e)

theorem assignBalances_idem (acc : Int) (l : List LedgerEntry) :
    assignBalances acc (assignBalances acc l) = assignBalances acc l := by
  induction l generalizing acc with
  | nil => rfl
  | cons e rest ih =>
      rw [assignBalances, assignBalances]
      have hsig : signedAmount { e with balanceAfter := acc + signedAmount e } = signedAmount e := rfl
      rw [hsig]
      exact congrArg _ (ih (acc + signedAmount e))

theorem lastBalance_cons (x : LedgerEntry) (m : List LedgerEntry) (h : m ≠ []) :
    lastBalance (x :: m) = lastBalance m := by
  cases m with
  | nil => exact absurd rfl h
  | cons y ys => rw [lastBalance, lastBalance, List.getLast?_cons_cons]

theorem lastBalance_assignBalances :
    ∀ (l : List LedgerEntry) (acc : Int), l ≠ [] →
      lastBalance (assignBalances acc l) = runningTotal acc l := by
  intro l
  induction l with
  | nil => intro acc h; exact absurd rfl h
  | cons e rest ih =>
      intro acc _
      cases rest with
      | nil => simp [assignBalances, lastBalance, runningTotal, signedAmount]
      | cons f rest2 =>
          rw [show assignBalances acc (e :: f :: rest2)
              = { e with balanceAfter := acc + signedAmount e }
                :: assignBalances (acc + signedAmount e) (f :: rest2) from rfl]
          rw [lastBalance_cons _ _ (by simp [assignBalances])]
          rw [ih (acc + signedAmount e) (by simp)]
          rfl

theorem runningTotal_eq_sums (l : List LedgerEntry) :
    ∀ acc : Int, runningTotal acc l = acc + sumCredits l - sumDebits l := by
  induction l with
  | nil => intro acc; simp [runningTotal, sumCredits, sumDebits]
  | cons e rest ih =>
      intro acc
      rw [runningTotal_cons, ih]
      cases h : e.direction with
      | credit =>
          have h1 : sumCredits (e :: rest) = e.amount + sumCredits rest := by
            simp [sumCredits, List.filter_cons, h]
          have h2 : sumDebits (e :: rest) = sumDebits rest := by
            simp [sumDebits, List.filter_cons, h]
          rw [h1, h2, signedAmount, h]
          simp
          ring
      | debit =>
          have h1 : sumCredits (e :: rest) = sumCredits rest := by
            simp [sumCredits, List.filter_cons, h]
          have h2 : sumDebits (e :: rest) = e.amount + sumDebits rest := by
            simp [sumDebits, List.filter_cons, h]
          rw [h1, h2, signedAmount, h]
          simp
          ring

theorem foldl_recalcStep (l : List LedgerEntry) :
    ∀ (acc : Int) (us : List (Nat × Int)),
      l.foldl recalcStep (acc, us) = (runningTotal acc l, us ++ changes acc l) := by
  induction l with
  | nil => intro acc us; simp [runningTotal, changes]
  | cons e rest ih =>
      intro acc us
      rw [List.foldl_cons]
      by_cases h : e.balanceAfter = acc + signedAmount e
      · rw [show recalcStep (acc, us) e = (acc + signedAmount e, us) from by
          simp [recalcStep, h]]
        rw [ih, runningTotal_cons]
        rw [show changes acc (e :: rest)
            = (if e.balanceAfter = acc + signedAmount e then []
               else [(e.id, acc + signedAmount e)]) ++ changes (acc + signedAmount e) rest from rfl]
        rw [if_pos h]
        simp
      · rw [show recalcStep (acc, us) e
            = (acc + signedAmount e, us ++ [(e.id, acc + signedAmount e)]) from by
          simp [recalcStep, h]]
        rw [ih, runningTotal_cons]
        rw [show changes acc (e :: rest)
            = (if e.balanceAfter = acc + signedAmount e then []
               else [(e.id, acc + signedAmount e)]) ++ changes (acc + signedAmount e) rest from rfl]
        rw [if_neg h]
        simp

theorem recalcLoop_eq (l : List LedgerEntry) :
    recalcLoop l = (runningTotal 0 l, changes 0 l) := by
  rw [recalcLoop, foldl_recalcStep]
  simp

theorem foldl_addStep (l : List LedgerEntry) :
    ∀ (acc : Int) (us : List (Nat × Int)) (d : Int),
      l.foldl addStep (acc, us, d)
        = (runningTotal acc l, us ++ addChanges acc l, candBA acc d l) := by
  induction l with
  | nil => intro acc us d; simp [runningTotal, addChanges, candBA]
  | cons e rest ih =>
      intro acc us d
      rw [List.foldl_cons]
      rw [show addChanges acc (e :: rest)
          = (if e.id = 0 then []
             else if e.balanceAfter = acc + signedAmount e then []
             else [(e.id, acc + signedAmount e)]) ++ addChanges (acc + signedAmount e) rest from rfl]
      rw [show candBA acc d (e :: rest)
          = candBA (acc + signedAmount e)
              (if e.id = 0 then acc + signedAmount e else d) rest from rfl]
      by_cases h0 : e.id = 0
      · rw [show addStep (acc, us, d) e = (acc + signedAmount e, us, acc + signedAmount e) from by
          simp [addStep, h0]]
        rw [ih, runningTotal_cons, if_pos h0, if_pos h0]
        simp
      · by_cases h : e.balanceAfter = acc + signedAmount e
        · rw [show addStep (acc, us, d) e = (acc + signedAmount e, us, d) from by
            simp [addStep, h0, h]]
          rw [ih, runningTotal_cons, if_neg h0, if_pos h, if_neg h0]
          simp
        · rw [show addStep (acc, us, d) e
              = (acc + signedAmount e, us ++ [(e.id, acc + signedAmount e)], d) from by
            simp [addStep, h0, h]]
          rw [ih, runningTotal_cons, if_neg h0, if_neg h, if_neg h0]
          simp

theorem changes_mem :
    ∀ (l : List LedgerEntry) (acc : Int) (x : Nat × Int), x ∈ changes acc l →
      ∃ e ∈ l, e.id = x.1 ∧ e.balanceAfter ≠ x.2 := by
  intro l
  induction l with
  | nil => intro acc x h; exact absurd h (by simp [changes])
  | cons e rest ih =>
      intro acc x h
      rw [show changes acc (e :: rest)
          = (if e.balanceAfter = acc + signedAmount e then []
             else [(e.id, acc + signedAmount e)]) ++ changes (acc + signedAmount e) rest from rfl,
        List.mem_append] at h
      rcases h with h | h
      · by_cases hb : e.balanceAfter = acc + signedAmount e
        · rw [if_pos hb] at h; exact absurd h (by simp)
        · rw [if_neg hb, List.mem_singleton] at h
          subst h
          exact ⟨e, List.mem_cons_self _ _, rfl, hb⟩
      · obtain ⟨f, hf, hfx⟩ := ih (acc + signedAmount e) x h
        exact ⟨f, List.mem_cons_of_mem _ hf, hfx⟩

theorem mem_map_fst_changes {l : List LedgerEntry} {acc : Int} {y : Nat}
    (h : y ∈ (changes acc l).map Prod.fst) : y ∈ l.map LedgerEntry.id := by
  rw [List.mem_map] at h
  obtain ⟨x, hx, hxy⟩ := h
  obtain ⟨e, he, hex, _⟩ := changes_mem l acc x hx
  rw [List.mem_map]
  exact ⟨e, he, by rw [hex, hxy]⟩

theorem addChanges_mem :
    ∀ (l : List LedgerEntry) (acc : Int) (x : Nat × Int), x ∈ addChanges acc l →
      ∃ e ∈ l, e.id = x.1 ∧ e.id ≠ 0 ∧ e.balanceAfter ≠ x.2 := by
  intro l
  induction l with
  | nil => intro acc x h; exact absurd h (by simp [addChanges])
  | cons e rest ih =>
      intro acc x h
      rw [show addChanges acc (e :: rest)
          = (if e.id = 0 then []
             else if e.balanceAfter = acc + signedAmount e then []
             else [(e.id, acc + signedAmount e)]) ++ addChanges (acc + signedAmount e) rest from rfl,
        List.mem_append] at h
      rcases h with h | h
      · by_cases h0 : e.id = 0
        · rw [if_pos h0] at h; exact absurd h (by simp)
        · rw [if_neg h0] at h
          by_cases hb : e.balanceAfter = acc + signedAmount e
          · rw [if_pos hb] at h; exact absurd h (by simp)
          · rw [if_neg hb, List.mem_singleton] at h
            subst h
            exact ⟨e, List.mem_cons_self _ _, rfl, h0, hb⟩
      · obtain ⟨f, hf, hfx⟩ := ih (acc + signedAmount e) x h
        exact ⟨f, List.mem_cons_of_mem _ hf, hfx⟩

theorem mem_map_fst_addChanges {l : List LedgerEntry} {acc : Int} {y : Nat}
    (h : y ∈ (addChanges acc l).map Prod.fst) : y ∈ l.map LedgerEntry.id := by
  rw [List.mem_map] at h
  obtain ⟨x, hx, hxy⟩ := h
  obtain ⟨e, he, hex, _, _⟩ := addChanges_mem l acc x hx
  rw [List.mem_map]
  exact ⟨e, he, by rw [hex, hxy]⟩

theorem changes_of_assign :
    ∀ (l : List LedgerEntry) (acc : Int), l = assignBalances acc l → changes acc l = [] := by
  intro l
  induction l with
  | nil => intro acc _; rfl
  | cons e rest ih =>
      intro acc h
      rw [assignBalances, List.cons.injEq] at h
      have hb : e.balanceAfter = acc + signedAmount e := congrArg LedgerEntry.balanceAfter h.1
      rw [show changes acc (e :: rest)
          = (if e.balanceAfter = acc + signedAmount e then []
             else [(e.id, acc + signedAmount e)]) ++ changes (acc + signedAmount e) rest from rfl]
      rw [if_pos hb, ih (acc + signedAmount e) h.2]
      rfl

theorem addChanges_eq_changes :
    ∀ (l : List LedgerEntry), (∀ e ∈ l, e.id ≠ 0) → ∀ acc, addChanges acc l = changes acc l := by
  intro l
  induction l with
  | nil => intro _ acc; rfl
  | cons e rest ih =>
      intro h acc
      rw [show addChanges acc (e :: rest)
          = (if e.id = 0 then []
             else if e.balanceAfter = acc + signedAmount e then []
             else [(e.id, acc + signedAmount e)]) ++ addChanges (acc + signedAmount e) rest from rfl]
      rw [show changes acc (e :: rest)
          = (if e.balanceAfter = acc + signedAmount e then []
             else [(e.id, acc + signedAmount e)]) ++ changes (acc + signedAmount e) rest from rfl]
      rw [if_neg (h e (List.mem_cons_self _ _)), ih (fun f hf => h f (List.mem_cons_of_mem _ hf))]

theorem candBA_of_no_zero :
    ∀ (l : List LedgerEntry), (∀ e ∈ l, e.id ≠ 0) → ∀ acc d, candBA acc d l = d := by
  intro l
  induction l with
  | nil => intro _ acc d; rfl
  | cons e rest ih =>
      intro h acc d
      rw [show candBA acc d (e :: rest)
          = candBA (acc + signedAmount e) (if e.id = 0 then acc + signedAmount e else d) rest from rfl]
      rw [if_neg (h e (List.mem_cons_self _ _)), ih (fun f hf => h f (List.mem_cons_of_mem _ hf))]

theorem addChanges_append (xs ys : List LedgerEntry) :
    ∀ acc, addChanges acc (xs ++ ys)
      = addChanges acc xs ++ addChanges (runningTotal acc xs) ys := by
  induction xs with
  | nil => intro acc; simp [addChanges, runningTotal]
  | cons e rest ih =>
      intro acc
      rw [List.cons_append]
      rw [show addChanges acc (e :: (rest ++ ys))
          = (if e.id = 0 then []
             else if e.balanceAfter = acc + signedAmount e then []
             else [(e.id, acc + signedAmount e)]) ++ addChanges (acc + signedAmount e) (rest ++ ys) from rfl]
      rw [show addChanges acc (e :: rest)
          = (if e.id = 0 then []
             else if e.balanceAfter = acc + signedAmount e then []
             else [(e.id, acc + signedAmount e)]) ++ addChanges (acc + signedAmount e) rest from rfl]
      rw [ih, runningTotal_cons]
      simp

theorem candBA_append (xs ys : List LedgerEntry) :
    ∀ acc d, candBA acc d (xs ++ ys)
      = candBA (runningTotal acc xs) (candBA acc d xs) ys := by
  induction xs with
  | nil => intro acc d; simp [candBA, runningTotal]
  | cons e rest ih =>
      intro acc d
      rw [List.cons_append]
      rw [show candBA acc d (e :: (rest ++ ys))
          = candBA (acc + signedAmount e) (if e.id = 0 then acc + signedAmount e else d) (rest ++ ys) from rfl]
      rw [show candBA acc d (e :: rest)
          = candBA (acc + signedAmount e) (if e.id = 0 then acc + signedAmount e else d) rest from rfl]
      rw [ih, runningTotal_cons]

theorem changes_shift :
    ∀ (l : List LedgerEntry) (acc d : Int), l = assignBalances acc l → d ≠ 0 →
      changes (acc + d) l = l.map (fun e => (e.id, e.balanceAfter + d)) := by
  intro l
  induction l with
  | nil => intro acc d _ _; rfl
  | cons e rest ih =>
      intro acc d h hd
      rw [assignBalances, List.cons.injEq] at h
      have hb : e.balanceAfter = acc + signedAmount e := congrArg LedgerEntry.balanceAfter h.1
      rw [show changes (acc + d) (e :: rest)
          = (if e.balanceAfter = acc + d + signedAmount e then []
             else [(e.id, acc + d + signedAmount e)]) ++ changes (acc + d + signedAmount e) rest from rfl]
      have harith : acc + d + signedAmount e = (acc + signedAmount e) + d := by ring
      have hne : e.balanceAfter ≠ acc + d + signedAmount e := by
        rw [harith, ← hb]
        intro hcontra
        exact hd (by linarith)
      rw [if_neg hne, harith, ih (acc + signedAmount e) d h.2 hd]
      rw [List.map_cons, ← hb]
      rfl

theorem applyUpds_append (us vs : List (Nat × Int)) (e : LedgerEntry) :
    applyUpds (us ++ vs) e = applyUpds vs (applyUpds us e) := by
  simp [applyUpds, List.foldl_append]

theorem eraseBalance_applyUpd (e : LedgerEntry) (u : Nat × Int) :
    eraseBalance (applyUpd e u) = eraseBalance e := by
  rw [applyUpd]
  split <;> rfl

theorem eraseBalance_applyUpds (us : List (Nat × Int)) :
    ∀ e : LedgerEntry, eraseBalance (applyUpds us e) = eraseBalance e := by
  induction us with
  | nil => intro e; rfl
  | cons u us ih =>
      intro e
      rw [show applyUpds (u :: us) e = applyUpds us (applyUpd e u) from rfl, ih,
        eraseBalance_applyUpd]

theorem applyUpds_id (us : List (Nat × Int)) (e : LedgerEntry) :
    (applyUpds us e).id = e.id := by
  have h := congrArg LedgerEntry.id (eraseBalance_applyUpds us e)
  exact h

theorem applyUpds_partyId (us : List (Nat × Int)) (e : LedgerEntry) :
    (applyUpds us e).partyId = e.partyId := by
  have h := congrArg LedgerEntry.partyId (eraseBalance_applyUpds us e)
  exact h

theorem applyUpds_date (us : List (Nat × Int)) (e : LedgerEntry) :
    (applyUpds us e).date = e.date := by
  have h := congrArg LedgerEntry.date (eraseBalance_applyUpds us e)
  exact h

theorem applyUpds_createdAt (us : List (Nat × Int)) (e : LedgerEntry) :
    (applyUpds us e).createdAt = e.createdAt := by
  have h := congrArg LedgerEntry.createdAt (eraseBalance_applyUpds us e)
  exact h

theorem signedAmount_applyUpds (us : List (Nat × Int)) (e : LedgerEntry) :
    signedAmount (applyUpds us e) = signedAmount e := by
  have h := eraseBalance_applyUpds us e
  calc signedAmount (applyUpds us e) = signedAmount (eraseBalance (applyUpds us e)) := rfl
    _ = signedAmount (eraseBalance e) := by rw [h]
    _ = signedAmount e := rfl

theorem chronoLE_applyUpds_left (us : List (Nat × Int)) (a b : LedgerEntry) :
    chronoLE (applyUpds us a) (applyUpds us b) = chronoLE a b := by
  rw [chronoLE, chronoLE, applyUpds_date, applyUpds_date, applyUpds_createdAt,
    applyUpds_createdAt]

theorem dateLE_applyUpds_left (us : List (Nat × Int)) (a b : LedgerEntry) :
    dateLE (applyUpds us a) (applyUpds us b) = dateLE a b := by
  rw [dateLE, dateLE, applyUpds_date, applyUpds_date]

theorem applyUpds_not_mem :
    ∀ (us : List (Nat × Int)) (e : LedgerEntry), e.id ∉ us.map Prod.fst → applyUpds us e = e := by
  intro us
  induction us with
  | nil => intro e _; rfl
  | cons u us ih =>
      intro e h
      rw [List.map_cons, List.mem_cons] at h
      push_neg at h
      rw [show applyUpds (u :: us) e = applyUpds us (applyUpd e u) from rfl,
        applyUpd, if_neg h.1, ih e h.2]

theorem applyEntryUpdates_eq_map :
    ∀ (us : List (Nat × Int)) (es : List LedgerEntry),
      applyEntryUpdates us es = es.map (applyUpds us) := by
  intro us
  induction us with
  | nil =>
      intro es
      induction es with
      | nil => rfl
      | cons x xs ihe =>
          show x :: xs = (x :: xs).map (applyUpds [])
          rw [List.map_cons, show applyUpds ([] : List (Nat × Int)) x = x from rfl, ← ihe]
          rfl
  | cons u us ih =>
      intro es
      rw [show applyEntryUpdates (u :: us) es
          = applyEntryUpdates us (es.map (fun e => applyUpd e u)) from rfl]
      rw [ih, List.map_map]
      rfl

/-- Applying exactly the updates that the recalculation loop queues over a
list with no duplicate ids rewrites that list to its canonically balanced
form. -/
theorem map_applyUpds_changes :
    ∀ (l : List LedgerEntry) (acc : Int), (l.map LedgerEntry.id).Nodup →
      l.map (applyUpds (changes acc l)) = assignBalances acc l := by
  intro l
  induction l with
  | nil => intro acc _; rfl
  | cons e rest ih =>
      intro acc hN
      rw [List.map_cons, List.nodup_cons] at hN
      have hrest_ne : ∀ x ∈ rest, x.id ≠ e.id := by
        intro x hx hxe
        exact hN.1 (List.mem_map.mpr ⟨x, hx, hxe⟩)
      rw [show changes acc (e :: rest)
          = (if e.balanceAfter = acc + signedAmount e then []
             else [(e.id, acc + signedAmount e)]) ++ changes (acc + signedAmount e) rest from rfl]
      have hown : applyUpds (if e.balanceAfter = acc + signedAmount e then []
          else [(e.id, acc + signedAmount e)]) e
          = { e with balanceAfter := acc + signedAmount e } := by
        by_cases hb : e.balanceAfter = acc + signedAmount e
        · rw [if_pos hb]
          show e = { e with balanceAfter := acc + signedAmount e }
          rw [← hb]
        · rw [if_neg hb]
          show applyUpd e (e.id, acc + signedAmount e) = _
          rw [applyUpd, if_pos rfl]
      rw [List.map_cons, assignBalances, List.cons.injEq]
      refine ⟨?_, ?_⟩
      · rw [applyUpds_append, hown]
        apply applyUpds_not_mem
        intro hmem
        exact hN.1 (mem_map_fst_changes hmem)
      ·
        rw [← ih (acc + signedAmount e) hN.2]
        apply List.map_congr_left
        intro x hx
        rw [applyUpds_append]
        congr 1
        by_cases hb : e.balanceAfter = acc + signedAmount e
        · rw [if_pos hb]; rfl
        · rw [if_neg hb]
          show applyUpd x (e.id, acc + signedAmount e) = x
          rw [applyUpd, if_neg (hrest_ne x hx)]

/-- The add-path analogue of `map_applyUpds_changes`: over a list with no
duplicate ids, writing the queued updates and giving the temp-id entry the
loop's candidate balance rewrites the list to its canonically balanced form. -/
theorem map_addPhi :
    ∀ (l : List LedgerEntry) (acc d : Int), (l.map LedgerEntry.id).Nodup →
      l.map (fun e => if e.id = 0 then { e with balanceAfter := candBA acc d l }
                      else applyUpds (addChanges acc l) e)
        = assignBalances acc l := by
  intro l
  induction l with
  | nil => intro acc d _; rfl
  | cons e rest ih =>
      intro acc d hN
      rw [List.map_cons, List.nodup_cons] at hN
      have hrest_ne : ∀ x ∈ rest, x.id ≠ e.id := by
        intro x hx hxe
        exact hN.1 (List.mem_map.mpr ⟨x, hx, hxe⟩)
      rw [show addChanges acc (e :: rest)
          = (if e.id = 0 then []
             else if e.balanceAfter = acc + signedAmount e then []
             else [(e.id, acc + signedAmount e)]) ++ addChanges (acc + signedAmount e) rest from rfl]
      rw [show candBA acc d (e :: rest)
          = candBA (acc + signedAmount e) (if e.id = 0 then acc + signedAmount e else d) rest from rfl]
      by_cases h0 : e.id = 0
      · have hzero : ∀ x ∈ rest, x.id ≠ 0 := by
          intro x hx hx0
          exact hrest_ne x hx (hx0.trans h0.symm)
        rw [if_pos h0, if_pos h0]
        rw [candBA_of_no_zero rest hzero, addChanges_eq_changes rest hzero]
        rw [List.map_cons, assignBalances, List.cons.injEq]
        refine ⟨by rw [if_pos h0], ?_⟩
        rw [← map_applyUpds_changes rest (acc + signedAmount e) hN.2]
        apply List.map_congr_left
        intro x hx
        rw [if_neg (hzero x hx)]
        rfl
      · rw [if_neg h0, if_neg h0]
        rw [List.map_cons, assignBalances, List.cons.injEq]
        have hown : applyUpds (if e.balanceAfter = acc + signedAmount e then []
            else [(e.id, acc + signedAmount e)]) e
            = { e with balanceAfter := acc + signedAmount e } := by
          by_cases hb : e.balanceAfter = acc + signedAmount e
          · rw [if_pos hb]
            show e = { e with balanceAfter := acc + signedAmount e }
            rw [← hb]
          · rw [if_neg hb]
            show applyUpd e (e.id, acc + signedAmount e) = _
            rw [applyUpd, if_pos rfl]
        refine ⟨?_, ?_⟩
        · rw [if_neg h0, applyUpds_append, hown]
          apply applyUpds_not_mem
          intro hmem
          exact hN.1 (mem_map_fst_addChanges hmem)
        · rw [← ih (acc + signedAmount e) d hN.2]
          apply List.map_congr_left
          intro x hx
          by_cases hx0 : x.id = 0
          · rw [if_pos hx0, if_pos hx0]
          · rw [if_neg hx0, if_neg hx0, applyUpds_append]
            congr 1
            by_cases hb : e.balanceAfter = acc + signedAmount e
            · rw [if_pos hb]; rfl
            · rw [if_neg hb]
              show applyUpd x (e.id, acc + signedAmount e) = x
              rw [applyUpd, if_neg (hrest_ne x hx)]

theorem filter_map_pres {f : LedgerEntry → LedgerEntry} {p : LedgerEntry → Bool}
    (hf : ∀ e, p (f e) = p e) :
    ∀ es : List LedgerEntry, (es.map f).filter p = (es.filter p).map f := by
  intro es
  induction es with
  | nil => rfl
  | cons x xs ih =>
      rw [List.map_cons, List.filter_cons, List.filter_cons, hf x]
      cases hp : p x with
      | true => simp [ih]
      | false => simp [ih]

theorem find?_updatePartyBalance (pid : Nat) (b : Int) (now : Int) :
    ∀ ps : List Party,
      (updatePartyBalance pid b now ps).find? (fun p => decide (p.id = pid))
        = (ps.find? (fun p => decide (p.id = pid))).map
            (fun p => { p with balance := b, updatedAt := now }) := by
  intro ps
  induction ps with
  | nil => rfl
  | cons p ps ih =>
      rw [updatePartyBalance, List.map_cons]
      by_cases h : p.id = pid
      · rw [if_pos h]
        rw [List.find?_cons_of_pos _ (by simp [h]), List.find?_cons_of_pos _ (by simp [h])]
        rfl
      · rw [if_neg h]
        rw [List.find?_cons_of_neg _ (by simp [h]), List.find?_cons_of_neg _ (by simp [h])]
        exact ih

theorem recalc_entryWrites (pid : Nat) (now : Int) (s : DBState) :
    (recalculateBalancesForParty pid now s).entryWrites = changes 0 (sortedEntries pid s) := by
  rw [recalculateBalancesForParty]
  simp only [recalcLoop_eq]
  cases getParty s pid with
  | none => rfl
  | some p =>
      simp only []
      by_cases h1 : p.balance ≠ runningTotal 0 (sortedEntries pid s)
      · simp only [if_pos h1]
      · simp only [if_neg h1]
        by_cases h2 : (sortedEntries pid s).isEmpty
        · simp only [h2, if_pos]
        · simp only [h2]; rfl


theorem recalc_state_entries (pid : Nat) (now : Int) (s : DBState) :
    (recalculateBalancesForParty pid now s).state.entries
      = applyEntryUpdates (changes 0 (sortedEntries pid s)) s.entries := by
  rw [recalculateBalancesForParty]
  simp only [recalcLoop_eq]
  cases getParty s pid with
  | none => rfl
  | some p =>
      simp only []
      by_cases h1 : p.balance ≠ runningTotal 0 (sortedEntries pid s)
      · simp only [if_pos h1]
      · simp only [if_neg h1]
        by_cases h2 : (sortedEntries pid s).isEmpty
        · simp only [h2, if_pos]
        · simp only [h2]; rfl

theorem recalc_parties_of_none (pid : Nat) (now : Int) (s : DBState)
    (h : getParty s pid = none) :
    (recalculateBalancesForParty pid now s).state.parties = s.parties
      ∧ (recalculateBalancesForParty pid now s).partyWrite = none := by
  rw [recalculateBalancesForParty]
  simp only [recalcLoop_eq, h]
  exact ⟨by trivial, by trivial⟩

theorem recalc_balance (pid : Nat) (now : Int) (s : DBState) (p : Party)
    (hp : getParty s pid = some p) :
    ∃ p', getParty (recalculateBalancesForParty pid now s).state pid = some p'
      ∧ p'.balance = runningTotal 0 (sortedEntries pid s) := by
  rw [recalculateBalancesForParty]
  simp only [recalcLoop_eq, hp]
  by_cases h1 : p.balance ≠ runningTotal 0 (sortedEntries pid s)
  have hp' : List.find? (fun q => decide (q.id = pid)) s.parties = some p := hp
  · simp only [if_pos h1]
    refine ⟨{ p with balance := runningTotal 0 (sortedEntries pid s), updatedAt := now }, ?_, rfl⟩
    show (updatePartyBalance pid _ now s.parties).find? _ = _
    rw [find?_updatePartyBalance, hp']
    rfl
  · simp only [if_neg h1]
    push_neg at h1
    by_cases h2 : (sortedEntries pid s).isEmpty
    · simp only [h2, if_pos]
      have hp' : List.find? (fun q => decide (q.id = pid)) s.parties = some p := hp
      refine ⟨{ p with balance := 0, updatedAt := now }, ?_, ?_⟩
      · show (updatePartyBalance pid _ now s.parties).find? _ = _
        rw [find?_updatePartyBalance, hp']
        rfl
      · show (0 : Int) = runningTotal 0 (sortedEntries pid s)
        rw [List.isEmpty_iff] at h2
        rw [h2]
        rfl
    · simp only [h2]
      exact ⟨p, hp, h1⟩

theorem nodup_ids_entriesOf (pid : Nat) (s : DBState)
    (hN : (s.entries.map LedgerEntry.id).Nodup) :
    ((entriesOf pid s).map LedgerEntry.id).Nodup :=
  ((List.filter_sublist _).map LedgerEntry.id).nodup hN

theorem nodup_ids_sortedEntries (pid : Nat) (s : DBState)
    (hN : (s.entries.map LedgerEntry.id).Nodup) :
    ((sortedEntries pid s).map LedgerEntry.id).Nodup := by
  have hperm : (sortedEntries pid s).Perm (entriesOf pid s) := by
    rw [sortedEntries_eq]
    exact stableSort_perm _ _
  exact (hperm.map LedgerEntry.id).nodup_iff.mpr (nodup_ids_entriesOf pid s hN)

theorem entriesOf_recalc (pid : Nat) (now : Int) (s : DBState) :
    entriesOf pid (recalculateBalancesForParty pid now s).state
      = (entriesOf pid s).map (applyUpds (changes 0 (sortedEntries pid s))) := by
  have h : entriesOf pid (recalculateBalancesForParty pid now s).state
      = ((recalculateBalancesForParty pid now s).state.entries).filter
          (fun e => decide (e.partyId = pid)) := rfl
  rw [h, recalc_state_entries, applyEntryUpdates_eq_map]
  apply filter_map_pres
  intro e
  rw [applyUpds_partyId]

/-- After a recalculation pass the party's stored entry sequence, re-sorted the
way the source sorts it, is exactly the canonically balanced version of the
pre-state's sorted sequence. -/
theorem recalc_sorted_state (pid : Nat) (now : Int) (s : DBState)
    (hN : (s.entries.map LedgerEntry.id).Nodup) :
    sortedEntries pid (recalculateBalancesForParty pid now s).state
      = assignBalances 0 (sortedEntries pid s) := by
  rw [sortedEntries_eq, entriesOf_recalc,
    stableSort_map _ (chronoLE_applyUpds_left _), ← sortedEntries_eq]
  exact map_applyUpds_changes _ 0 (nodup_ids_sortedEntries pid s hN)

theorem ledgerInvariant_of (pid : Nat) (s : DBState)
    (h1 : sortedEntries pid s = assignBalances 0 (sortedEntries pid s))
    (h2 : ∀ p, getParty s pid = some p → p.balance = lastBalance (sortedEntries pid s)) :
    ledgerInvariant pid s = true := by
  rw [ledgerInvariant, Bool.and_eq_true, decide_eq_true_eq]
  refine ⟨h1, ?_⟩
  cases hgp : getParty s pid with
  | none => rfl
  | some p => simpa using h2 p hgp

theorem lastBalance_sorted_recalc (pid : Nat) (now : Int) (s : DBState)
    (hN : (s.entries.map LedgerEntry.id).Nodup) :
    lastBalance (sortedEntries pid (recalculateBalancesForParty pid now s).state)
      = runningTotal 0 (sortedEntries pid s) := by
  rw [recalc_sorted_state pid now s hN]
  cases hl : sortedEntries pid s with
  | nil => rfl
  | cons e rest =>
      rw [lastBalance_assignBalances (e :: rest) 0 (by simp)]

/-- The recalculation pass establishes the ledger invariant. -/
theorem recalc_establishes_invariant (pid : Nat) (now : Int) (s : DBState)
    (hN : (s.entries.map LedgerEntry.id).Nodup) :
    ledgerInvariant pid (recalculateBalancesForParty pid now s).state = true := by
  apply ledgerInvariant_of
  · rw [recalc_sorted_state pid now s hN]
    exact (assignBalances_idem 0 (sortedEntries pid s)).symm
  · intro p' hp'
    cases hgp : getParty s pid with
    | none =>
        obtain ⟨hparties, _⟩ := recalc_parties_of_none pid now s hgp
        have : getParty (recalculateBalancesForParty pid now s).state pid = getParty s pid := by
          show ((recalculateBalancesForParty pid now s).state.parties).find? _ = _
          rw [hparties]
          rfl
        rw [this, hgp] at hp'
        exact absurd hp' (by simp)
    | some p =>
        obtain ⟨p'', hp'', hbal⟩ := recalc_balance pid now s p hgp
        rw [hp''] at hp'
        rw [Option.some.injEq] at hp'
        subst hp'
        rw [hbal, lastBalance_sorted_recalc pid now s hN]

theorem addSorted_eq (pid : Nat) (amount : Int) (direction : Direction) (note : Option String)
    (date now : Int) (s : DBState) :
    addSorted pid amount direction note date now s
      = stableSort chronoLE (entriesOf pid s ++ [mkCandidate pid amount direction note date now]) := by
  rw [addSorted, sortChrono_append_sortDate]

theorem addEntry_ok_elim {pid : Nat} {amount : Int} {direction : Direction} {note : Option String}
    {date now : Int} {newId : Nat} {s : DBState} {r : AddResult}
    (h : addEntry pid amount direction note date now newId s = Except.ok r) :
    ¬amount ≤ 0 ∧ ∃ p, getParty s pid = some p := by
  rw [addEntry] at h
  by_cases hamt : amount ≤ 0
  · rw [if_pos hamt] at h
    exact absurd h (by simp)
  · rw [if_neg hamt] at h
    cases hgp : getParty s pid with
    | none => rw [hgp] at h; exact absurd h (by simp)
    | some p => exact ⟨hamt, p, rfl⟩

theorem addEntry_components {pid : Nat} {amount : Int} {direction : Direction} {note : Option String}
    {date now : Int} {newId : Nat} {s : DBState} {r : AddResult}
    (h : addEntry pid amount direction note date now newId s = Except.ok r) :
    r.entryWrites = addChanges 0 (addSorted pid amount direction note date now s)
    ∧ r.newEntry = { mkCandidate pid amount direction note date now with
        id := newId,
        balanceAfter := candBA 0 0 (addSorted pid amount direction note date now s) }
    ∧ r.state.parties = updatePartyBalance pid
        (runningTotal 0 (addSorted pid amount direction note date now s)) now s.parties
    ∧ r.state.entries = applyEntryUpdates
        (addChanges 0 (addSorted pid amount direction note date now s)) s.entries
        ++ [r.newEntry] := by
  obtain ⟨hamt, p, hgp⟩ := addEntry_ok_elim h
  rw [addEntry, if_neg hamt, hgp] at h
  simp only [foldl_addStep] at h
  rw [Except.ok.injEq] at h
  subst h
  exact ⟨rfl, rfl, rfl, rfl⟩

theorem date_assignId (n : Nat) (e : LedgerEntry) : (assignId n e).date = e.date := by
  rw [assignId]; split <;> rfl

theorem createdAt_assignId (n : Nat) (e : LedgerEntry) :
    (assignId n e).createdAt = e.createdAt := by
  rw [assignId]; split <;> rfl

theorem balanceAfter_assignId (n : Nat) (e : LedgerEntry) :
    (assignId n e).balanceAfter = e.balanceAfter := by
  rw [assignId]; split <;> rfl

theorem signedAmount_assignId (n : Nat) (e : LedgerEntry) :
    signedAmount (assignId n e) = signedAmount e := by
  rw [assignId]; split <;> rfl

theorem chronoLE_comp (f : LedgerEntry → LedgerEntry)
    (hd : ∀ e, (f e).date = e.date) (hc : ∀ e, (f e).createdAt = e.createdAt)
    (a b : LedgerEntry) : chronoLE (f a) (f b) = chronoLE a b := by
  rw [chronoLE, chronoLE, hd, hd, hc, hc]

theorem assignBalances_map_assignId (n : Nat) :
    ∀ (l : List LedgerEntry) (acc : Int),
      assignBalances acc (l.map (assignId n)) = (assignBalances acc l).map (assignId n) := by
  intro l
  induction l with
  | nil => intro acc; rfl
  | cons e rest ih =>
      intro acc
      rw [List.map_cons, assignBalances, assignBalances, List.map_cons,
        signedAmount_assignId, ih]
      congr 1
      by_cases h0 : e.id = 0
      · simp [assignId, h0]
      · simp [assignId, h0]

theorem getLast?_map_assignId (n : Nat) :
    ∀ l : List LedgerEntry, (l.map (assignId n)).getLast? = l.getLast?.map (assignId n) := by
  intro l
  induction l with
  | nil => rfl
  | cons e rest ih =>
      cases rest with
      | nil => rfl
      | cons f rest2 =>
          rw [List.map_cons, List.map_cons, List.getLast?_cons_cons, ← List.map_cons, ih,
            List.getLast?_cons_cons]

theorem lastBalance_map_assignId (n : Nat) (l : List LedgerEntry) :
    lastBalance (l.map (assignId n)) = lastBalance l := by
  rw [lastBalance, lastBalance, getLast?_map_assignId]
  cases l.getLast? with
  | none => rfl
  | some e =>
      show (assignId n e).balanceAfter = e.balanceAfter
      exact balanceAfter_assignId n e

theorem entriesOf_addEntry {pid : Nat} {amount : Int} {direction : Direction}
    {note : Option String} {date now : Int} {newId : Nat} {s : DBState} {r : AddResult}
    (h : addEntry pid amount direction note date now newId s = Except.ok r) :
    entriesOf pid r.state
      = (entriesOf pid s).map
          (applyUpds (addChanges 0 (addSorted pid amount direction note date now s)))
        ++ [r.newEntry] := by
  obtain ⟨_, hNE, _, hE⟩ := addEntry_components h
  have hstart : entriesOf pid r.state
      = (r.state.entries).filter (fun e => decide (e.partyId = pid)) := rfl
  rw [hstart, hE, List.filter_append, applyEntryUpdates_eq_map,
    filter_map_pres (fun e => by rw [applyUpds_partyId])]
  congr 1
  rw [hNE]
  simp [List.filter_cons]
  rfl

theorem nodup_ids_addSorted {pid : Nat} (amount : Int) (direction : Direction)
    (note : Option String) (date now : Int) {s : DBState}
    (hN : (s.entries.map LedgerEntry.id).Nodup)
    (h0 : ∀ e ∈ s.entries, e.id ≠ 0) :
    ((stableSort chronoLE
        (entriesOf pid s ++ [mkCandidate pid amount direction note date now])).map
        LedgerEntry.id).Nodup := by
  have hbase : ((entriesOf pid s ++ [mkCandidate pid amount direction note date now]).map
      LedgerEntry.id).Nodup := by
    rw [List.map_append]
    rw [List.nodup_append]
    refine ⟨nodup_ids_entriesOf pid s hN, List.nodup_singleton 0, ?_⟩
    intro a ha hb
    simp only [List.map_cons, List.map_nil, List.mem_singleton] at hb
    subst hb
    rw [List.mem_map] at ha
    obtain ⟨e, he, he0⟩ := ha
    exact h0 e (List.mem_of_mem_filter he) he0
  have hperm : (stableSort chronoLE
      (entriesOf pid s ++ [mkCandidate pid amount direction note date now])).Perm
      (entriesOf pid s ++ [mkCandidate pid amount direction note date now]) :=
    stableSort_perm _ _
  exact (hperm.map LedgerEntry.id).nodup_iff.mpr hbase

theorem add_sorted_state {pid : Nat} {amount : Int} {direction : Direction}
    {note : Option String} {date now : Int} {newId : Nat} {s : DBState} {r : AddResult}
    (hN : (s.entries.map LedgerEntry.id).Nodup)
    (h0 : ∀ e ∈ s.entries, e.id ≠ 0)
    (h : addEntry pid amount direction note date now newId s = Except.ok r) :
    sortedEntries pid r.state
      = (assignBalances 0 (stableSort chronoLE
          (entriesOf pid s ++ [mkCandidate pid amount direction note date now]))).map
          (assignId newId) := by
  obtain ⟨_, hNE, _, _⟩ := addEntry_components h
  have hEO := entriesOf_addEntry h
  rw [addSorted_eq] at hEO hNE
  rw [sortedEntries_eq, hEO]
  have hmap : (entriesOf pid s).map
        (applyUpds (addChanges 0 (stableSort chronoLE
          (entriesOf pid s ++ [mkCandidate pid amount direction note date now]))))
        ++ [r.newEntry]
      = (entriesOf pid s ++ [mkCandidate pid amount direction note date now]).map
          (fun e => assignId newId
            (if e.id = 0 then
              { e with balanceAfter := candBA 0 0 (stableSort chronoLE
                  (entriesOf pid s ++ [mkCandidate pid amount direction note date now])) }
             else applyUpds (addChanges 0 (stableSort chronoLE
                  (entriesOf pid s ++ [mkCandidate pid amount direction note date now]))) e)) := by
    rw [List.map_append]
    congr 1
    · apply List.map_congr_left
      intro e he
      have he0 : e.id ≠ 0 := h0 e (List.mem_of_mem_filter he)
      rw [if_neg he0, assignId, if_neg (by rw [applyUpds_id]; exact he0)]
    · rw [List.map_cons, List.map_nil, hNE]
      rfl
  rw [hmap, stableSort_map _ (chronoLE_comp _
      (fun e => by
        rw [date_assignId]
        split <;> [rfl; rw [applyUpds_date]])
      (fun e => by
        rw [createdAt_assignId]
        split <;> [rfl; rw [applyUpds_createdAt]]))]
  have hcomp : ∀ l : List LedgerEntry, l.map
        (fun e => assignId newId
          (if e.id = 0 then
            { e with balanceAfter := candBA 0 0 (stableSort chronoLE
                (entriesOf pid s ++ [mkCandidate pid amount direction note date now])) }
           else applyUpds (addChanges 0 (stableSort chronoLE
                (entriesOf pid s ++ [mkCandidate pid amount direction note date now]))) e))
      = (l.map
          (fun e =>
            if e.id = 0 then
              { e with balanceAfter := candBA 0 0 (stableSort chronoLE
                  (entriesOf pid s ++ [mkCandidate pid amount direction note date now])) }
            else applyUpds (addChanges 0 (stableSort chronoLE
                  (entriesOf pid s ++ [mkCandidate pid amount direction note date now]))) e)).map
          (assignId newId) := by
    intro l
    rw [List.map_map]
    rfl
  rw [hcomp, map_addPhi _ 0 0 (nodup_ids_addSorted amount direction note date now hN h0)]

theorem DBState_eq (s₁ s₂ : DBState) (h1 : s₁.parties = s₂.parties)
    (h2 : s₁.entries = s₂.entries) : s₁ = s₂ := by
  cases s₁
  cases s₂
  simp_all

theorem getParty_addEntry {pid : Nat} {amount : Int} {direction : Direction}
    {note : Option String} {date now : Int} {newId : Nat} {s : DBState} {r : AddResult}
    {p : Party} (hp : getParty s pid = some p)
    (h : addEntry pid amount direction note date now newId s = Except.ok r) :
    getParty r.state pid = some { p with
      balance := runningTotal 0 (stableSort chronoLE
        (entriesOf pid s ++ [mkCandidate pid amount direction note date now])),
      updatedAt := now } := by
  obtain ⟨_, _, hP, _⟩ := addEntry_components h
  rw [addSorted_eq] at hP
  have hp' : List.find? (fun q => decide (q.id = pid)) s.parties = some p := hp
  show (r.state.parties).find? _ = _
  rw [hP, find?_updatePartyBalance, hp']
  rfl

theorem addSorted_ne_nil (pid : Nat) (amount : Int) (direction : Direction)
    (note : Option String) (date now : Int) (s : DBState) :
    stableSort chronoLE
      (entriesOf pid s ++ [mkCandidate pid amount direction note date now]) ≠ [] := by
  intro hnil
  have hlen := (stableSort_perm chronoLE
    (entriesOf pid s ++ [mkCandidate pid amount direction note date now])).length_eq
  rw [hnil] at hlen
  simp at hlen

/-- The add-with-candidate transaction establishes the ledger invariant. -/
theorem add_establishes_invariant {pid : Nat} {amount : Int} {direction : Direction}
    {note : Option String} {date now : Int} {newId : Nat} {s : DBState} {r : AddResult}
    (hN : (s.entries.map LedgerEntry.id).Nodup)
    (h0 : ∀ e ∈ s.entries, e.id ≠ 0)
    (h : addEntry pid amount direction note date now newId s = Except.ok r) :
    ledgerInvariant pid r.state = true := by
  obtain ⟨hamt, p, hgp⟩ := addEntry_ok_elim h
  apply ledgerInvariant_of
  · rw [add_sorted_state hN h0 h, ← assignBalances_map_assignId, assignBalances_idem]
  · intro p' hp'
    rw [getParty_addEntry hgp h, Option.some.injEq] at hp'
    subst hp'
    rw [add_sorted_state hN h0 h, lastBalance_map_assignId,
      lastBalance_assignBalances _ 0 (addSorted_ne_nil pid amount direction note date now s)]

theorem ledgerInvariant_elim (pid : Nat) (s : DBState) (h : ledgerInvariant pid s = true) :
    sortedEntries pid s = assignBalances 0 (sortedEntries pid s)
    ∧ ∀ p, getParty s pid = some p → p.balance = lastBalance (sortedEntries pid s) := by
  rw [ledgerInvariant, Bool.and_eq_true, decide_eq_true_eq] at h
  refine ⟨h.1, ?_⟩
  intro p hp
  have h2 := h.2
  rw [hp] at h2
  simpa using h2

theorem sortedEntries_ne_nil_of (pid : Nat) (s : DBState) (hne : entriesOf pid s ≠ []) :
    sortedEntries pid s ≠ [] := by
  intro hnil
  have hlen : (sortedEntries pid s).length = (entriesOf pid s).length := by
    rw [sortedEntries_eq]
    exact (stableSort_perm chronoLE (entriesOf pid s)).length_eq
  rw [hnil] at hlen
  exact hne (List.eq_nil_of_length_eq_zero hlen.symm)

theorem recalc_no_party_write (pid : Nat) (now : Int) (s : DBState) (p : Party)
    (hp : getParty s pid = some p)
    (hbal : p.balance = runningTotal 0 (sortedEntries pid s))
    (hne : entriesOf pid s ≠ []) :
    (recalculateBalancesForParty pid now s).partyWrite = none
    ∧ (recalculateBalancesForParty pid now s).state.parties = s.parties := by
  have hsne : sortedEntries pid s ≠ [] := sortedEntries_ne_nil_of pid s hne
  have hempty : (sortedEntries pid s).isEmpty = false := by
    cases hl : sortedEntries pid s with
    | nil => exact absurd hl hsne
    | cons a as => rfl
  rw [recalculateBalancesForParty]
  simp only [recalcLoop_eq, hp]
  rw [if_neg (by rw [hbal]; simp), hempty]
  exact ⟨by trivial, by trivial⟩

/-- A second recalculation pass right after a first one queues no entry
updates and leaves the entries table unchanged. -/
theorem recalc_idempotent_entries (pid : Nat) (t1 t2 : Int) (s : DBState)
    (hN : (s.entries.map LedgerEntry.id).Nodup) :
    (recalculateBalancesForParty pid t2
        (recalculateBalancesForParty pid t1 s).state).entryWrites = []
    ∧ (recalculateBalancesForParty pid t2
        (recalculateBalancesForParty pid t1 s).state).state.entries
      = (recalculateBalancesForParty pid t1 s).state.entries := by
  have hfix : sortedEntries pid (recalculateBalancesForParty pid t1 s).state
      = assignBalances 0 (sortedEntries pid (recalculateBalancesForParty pid t1 s).state) := by
    rw [recalc_sorted_state pid t1 s hN, assignBalances_idem]
  have hch : changes 0 (sortedEntries pid (recalculateBalancesForParty pid t1 s).state) = [] :=
    changes_of_assign _ 0 hfix
  constructor
  · rw [recalc_entryWrites, hch]
  · rw [recalc_state_entries, hch]
    rfl

theorem entriesOf_ne_nil_recalc (pid : Nat) (now : Int) (s : DBState)
    (hne : entriesOf pid s ≠ []) :
    entriesOf pid (recalculateBalancesForParty pid now s).state ≠ [] := by
  rw [entriesOf_recalc]
  intro hnil
  exact hne (List.map_eq_nil.mp hnil)

/-- A second recalculation pass right after a first one changes nothing at all
when the party has at least one entry (or is absent). -/
theorem recalc_idempotent_full (pid : Nat) (t1 t2 : Int) (s : DBState)
    (hN : (s.entries.map LedgerEntry.id).Nodup)
    (hne : entriesOf pid s ≠ []) :
    (recalculateBalancesForParty pid t2 (recalculateBalancesForParty pid t1 s).state).state
      = (recalculateBalancesForParty pid t1 s).state
    ∧ (recalculateBalancesForParty pid t2
        (recalculateBalancesForParty pid t1 s).state).partyWrite = none := by
  obtain ⟨hw2, he2⟩ := recalc_idempotent_entries pid t1 t2 s hN
  cases hgp : getParty s pid with
  | none =>
      obtain ⟨hpar1, _⟩ := recalc_parties_of_none pid t1 s hgp
      have hgp1 : getParty (recalculateBalancesForParty pid t1 s).state pid = none := by
        show ((recalculateBalancesForParty pid t1 s).state.parties).find? _ = _
        rw [hpar1]
        exact hgp
      obtain ⟨hpar2, hpw2⟩ := recalc_parties_of_none pid t2 _ hgp1
      exact ⟨DBState_eq _ _ hpar2 he2, hpw2⟩
  | some p =>
      obtain ⟨p₁, hgp1, hbal1⟩ := recalc_balance pid t1 s p hgp
      have hbal1' : p₁.balance
          = runningTotal 0 (sortedEntries pid (recalculateBalancesForParty pid t1 s).state) := by
        rw [recalc_sorted_state pid t1 s hN, runningTotal_assignBalances]
        exact hbal1
      obtain ⟨hpw2, hpar2⟩ := recalc_no_party_write pid t2 _ p₁ hgp1 hbal1'
        (entriesOf_ne_nil_recalc pid t1 s hne)
      exact ⟨DBState_eq _ _ hpar2 he2, hpw2⟩

theorem mem_dropWhile_chrono (c : LedgerEntry) :
    ∀ (l : List LedgerEntry), l.Pairwise (fun a b => chronoLE a b = true) →
      ∀ e ∈ l.dropWhile (fun x => chronoLE x c), chronoLE e c = false := by
  intro l
  induction l with
  | nil => intro _ e he; exact absurd he (by simp)
  | cons x xs ih =>
      intro hs e he
      rw [List.pairwise_cons] at hs
      rw [List.dropWhile_cons] at he
      by_cases hx : chronoLE x c = true
      · rw [if_pos hx] at he
        exact ih hs.2 e he
      · rw [if_neg hx] at he
        rw [Bool.not_eq_true] at hx
        rcases List.mem_cons.mp he with rfl | he'
        · exact hx
        · cases hec : chronoLE e c with
          | false => rfl
          | true => exact absurd (chronoLE_trans x e c (hs.1 e he') hec) (by rw [hx]; simp)

theorem applyUpds_map_self (f : LedgerEntry → Int) :
    ∀ (v : List LedgerEntry), (v.map LedgerEntry.id).Nodup → ∀ e ∈ v,
      applyUpds (v.map (fun x => (x.id, f x))) e = { e with balanceAfter := f e } := by
  intro v
  induction v with
  | nil => intro _ e he; exact absurd he (by simp)
  | cons x xs ih =>
      intro hN e he
      rw [List.map_cons, List.nodup_cons] at hN
      rw [List.map_cons]
      rcases List.mem_cons.mp he with rfl | he'
      · rw [show applyUpds ((e.id, f e) :: xs.map (fun x => (x.id, f x))) e
            = applyUpds (xs.map (fun x => (x.id, f x))) (applyUpd e (e.id, f e)) from rfl]
        rw [applyUpd, if_pos rfl]
        apply applyUpds_not_mem
        rw [List.map_map]
        intro hmem
        exact hN.1 (by exact hmem)
      · have hne : e.id ≠ x.id := by
          intro hcontra
          apply hN.1
          rw [← hcontra]
          exact List.mem_map.mpr ⟨e, he', rfl⟩
        rw [show applyUpds ((x.id, f x) :: xs.map (fun y => (y.id, f y))) e
            = applyUpds (xs.map (fun y => (y.id, f y))) (applyUpd e (x.id, f x)) from rfl]
        rw [applyUpd, if_neg hne]
        exact ih hN.2 e he'

theorem mem_sortedEntries_iff (pid : Nat) (s : DBState) (e : LedgerEntry) :
    e ∈ sortedEntries pid s ↔ e ∈ entriesOf pid s := by
  rw [sortedEntries_eq]
  exact (stableSort_perm chronoLE _).mem_iff

theorem nodup_ids_dropWhile (pid : Nat) (s : DBState) (p : LedgerEntry → Bool)
    (hN : (s.entries.map LedgerEntry.id).Nodup) :
    (((sortedEntries pid s).dropWhile p).map LedgerEntry.id).Nodup :=
  ((List.dropWhile_sublist p).map LedgerEntry.id).nodup (nodup_ids_sortedEntries pid s hN)

/-- Decomposition of the add path around the candidate's insertion point: the
pre-state's sorted entries split into the weakly-earlier block `u` and the
strictly-later block `v`; exactly the entries of `v` are written, each shifted
by the candidate's signed amount, and every other stored entry is untouched. -/
theorem add_backdate_decomp {pid : Nat} {amount : Int} {direction : Direction}
    {note : Option String} {date now : Int} {newId : Nat} {s : DBState} {r : AddResult}
    (hInv : ledgerInvariant pid s = true)
    (hN : (s.entries.map LedgerEntry.id).Nodup)
    (h0 : ∀ e ∈ s.entries, e.id ≠ 0)
    (h : addEntry pid amount direction note date now newId s = Except.ok r) :
    r.entryWrites
      = ((sortedEntries pid s).dropWhile
          (fun x => chronoLE x (mkCandidate pid amount direction note date now))).map
          (fun e => (e.id,
            e.balanceAfter + signedAmount (mkCandidate pid amount direction note date now)))
    ∧ r.state.entries = s.entries.map (fun e =>
        if decide (e.partyId = pid)
            && !chronoLE e (mkCandidate pid amount direction note date now) then
          { e with balanceAfter :=
              e.balanceAfter + signedAmount (mkCandidate pid amount direction note date now) }
        else e) ++ [r.newEntry] := by
  obtain ⟨hamt, p, hgp⟩ := addEntry_ok_elim h
  obtain ⟨hW, _, _, hE⟩ := addEntry_components h
  rw [addSorted_eq] at hW hE
  have hsplit : sortedEntries pid s
      = (sortedEntries pid s).takeWhile
          (fun x => chronoLE x (mkCandidate pid amount direction note date now))
        ++ (sortedEntries pid s).dropWhile
          (fun x => chronoLE x (mkCandidate pid amount direction note date now)) :=
    (List.takeWhile_append_dropWhile _ _).symm
  have hsorted : (sortedEntries pid s).Pairwise (fun a b => chronoLE a b = true) := by
    rw [sortedEntries_eq]
    exact pairwise_stableSort chronoLE_total chronoLE_trans _
  have hu : ∀ e ∈ (sortedEntries pid s).takeWhile
      (fun x => chronoLE x (mkCandidate pid amount direction note date now)),
      chronoLE e (mkCandidate pid amount direction note date now) = true := by
    intro e he
    have hh := List.mem_takeWhile_imp he
    exact hh
  have hv : ∀ e ∈ (sortedEntries pid s).dropWhile
      (fun x => chronoLE x (mkCandidate pid amount direction note date now)),
      chronoLE e (mkCandidate pid amount direction note date now) = false :=
    mem_dropWhile_chrono _ _ hsorted
  have hA : stableSort chronoLE
      (entriesOf pid s ++ [mkCandidate pid amount direction note date now])
      = (sortedEntries pid s).takeWhile
          (fun x => chronoLE x (mkCandidate pid amount direction note date now))
        ++ mkCandidate pid amount direction note date now
          :: (sortedEntries pid s).dropWhile
            (fun x => chronoLE x (mkCandidate pid amount direction note date now)) := by
    rw [sortChrono_append, ← sortedEntries_eq, insertWeak_eq_take_drop]
  obtain ⟨hfix, _⟩ := ledgerInvariant_elim pid s hInv
  have hfix' : (sortedEntries pid s).takeWhile
        (fun x => chronoLE x (mkCandidate pid amount direction note date now))
      ++ (sortedEntries pid s).dropWhile
        (fun x => chronoLE x (mkCandidate pid amount direction note date now))
      = assignBalances 0 ((sortedEntries pid s).takeWhile
          (fun x => chronoLE x (mkCandidate pid amount direction note date now)))
      ++ assignBalances (runningTotal 0 ((sortedEntries pid s).takeWhile
          (fun x => chronoLE x (mkCandidate pid amount direction note date now))))
          ((sortedEntries pid s).dropWhile
            (fun x => chronoLE x (mkCandidate pid amount direction note date now))) := by
    rw [← assignBalances_append, ← hsplit]
    exact hfix
  obtain ⟨hufix, hvfix⟩ := List.append_inj hfix' (length_assignBalances _ _).symm
  have hids : ∀ e ∈ sortedEntries pid s, e.id ≠ 0 := by
    intro e he
    exact h0 e (List.mem_of_mem_filter ((mem_sortedEntries_iff pid s e).mp he))
  have huid : ∀ e ∈ (sortedEntries pid s).takeWhile
      (fun x => chronoLE x (mkCandidate pid amount direction note date now)), e.id ≠ 0 :=
    fun e he => hids e (by rw [hsplit]; exact List.mem_append_left _ he)
  have hvid : ∀ e ∈ (sortedEntries pid s).dropWhile
      (fun x => chronoLE x (mkCandidate pid amount direction note date now)), e.id ≠ 0 :=
    fun e he => hids e (by rw [hsplit]; exact List.mem_append_right _ he)
  have hpos : (0 : Int) < amount := not_le.mp hamt
  have hsC : signedAmount (mkCandidate pid amount direction note date now) ≠ 0 := by
    rw [signedAmount]
    split
    · exact ne_of_gt hpos
    · exact neg_ne_zero.mpr (ne_of_gt hpos)
  have hW2 : addChanges 0 (stableSort chronoLE
      (entriesOf pid s ++ [mkCandidate pid amount direction note date now]))
      = ((sortedEntries pid s).dropWhile
          (fun x => chronoLE x (mkCandidate pid amount direction note date now))).map
          (fun e => (e.id,
            e.balanceAfter + signedAmount (mkCandidate pid amount direction note date now))) := by
    rw [hA, addChanges_append, addChanges_eq_changes _ huid, changes_of_assign _ 0 hufix]
    rw [show addChanges (runningTotal 0 ((sortedEntries pid s).takeWhile
        (fun x => chronoLE x (mkCandidate pid amount direction note date now))))
        (mkCandidate pid amount direction note date now
          :: (sortedEntries pid s).dropWhile
            (fun x => chronoLE x (mkCandidate pid amount direction note date now)))
        = addChanges (runningTotal 0 ((sortedEntries pid s).takeWhile
            (fun x => chronoLE x (mkCandidate pid amount direction note date now)))
            + signedAmount (mkCandidate pid amount direction note date now))
            ((sortedEntries pid s).dropWhile
              (fun x => chronoLE x (mkCandidate pid amount direction note date now))) from rfl]
    rw [addChanges_eq_changes _ hvid]
    rw [changes_shift _ _ _ hvfix hsC]
    simp
  refine ⟨by rw [hW, hW2], ?_⟩
  rw [hE, hW2]
  congr 1
  rw [applyEntryUpdates_eq_map]
  apply List.map_congr_left
  intro e he
  have hinj := List.inj_on_of_nodup_map hN
  have hmemv : ∀ x ∈ (sortedEntries pid s).dropWhile
      (fun y => chronoLE y (mkCandidate pid amount direction note date now)),
      x ∈ s.entries := by
    intro x hx
    have hx1 : x ∈ sortedEntries pid s := by
      rw [hsplit]
      exact List.mem_append_right _ hx
    exact List.mem_of_mem_filter ((mem_sortedEntries_iff pid s x).mp hx1)
  have hnotin : ∀ (hne : e ∉ (sortedEntries pid s).dropWhile
      (fun y => chronoLE y (mkCandidate pid amount direction note date now))),
      applyUpds (((sortedEntries pid s).dropWhile
        (fun y => chronoLE y (mkCandidate pid amount direction note date now))).map
        (fun x => (x.id,
          x.balanceAfter + signedAmount (mkCandidate pid amount direction note date now)))) e
      = e := by
    intro hne
    apply applyUpds_not_mem
    rw [List.map_map]
    intro hmem
    rw [List.mem_map] at hmem
    obtain ⟨x, hx, hxe⟩ := hmem
    have hxe' : x.id = e.id := hxe
    have : x = e := hinj (hmemv x hx) he hxe'
    subst this
    exact hne hx
  by_cases hp' : e.partyId = pid
  · by_cases hc : chronoLE e (mkCandidate pid amount direction note date now) = true
    · rw [if_neg (by rw [hc]; simp [hp'])]
      apply hnotin
      intro hmem
      rw [hv e hmem] at hc
      exact absurd hc (by simp)
    · rw [Bool.not_eq_true] at hc
      have hein : e ∈ (sortedEntries pid s).dropWhile
          (fun y => chronoLE y (mkCandidate pid amount direction note date now)) := by
        have he1 : e ∈ sortedEntries pid s :=
          (mem_sortedEntries_iff pid s e).mpr (List.mem_filter.mpr ⟨he, by simp [hp']⟩)
        rw [hsplit] at he1
        rcases List.mem_append.mp he1 with h' | h'
        · rw [hu e h'] at hc
          exact absurd hc (by simp)
        · exact h'
      rw [applyUpds_map_self _ _ (nodup_ids_dropWhile pid s _ hN) e hein]
      rw [if_pos (by rw [hc]; simp [hp'])]
  · rw [if_neg (by simp [hp'])]
    apply hnotin
    intro hmem
    have : e ∈ entriesOf pid s := by
      have he1 : e ∈ sortedEntries pid s := by
        rw [hsplit]
        exact List.mem_append_right _ hmem
      exact (mem_sortedEntries_iff pid s e).mp he1
    exact hp' (by simpa using (List.mem_filter.mp this).2)

theorem runningTotal_eq_sum (l : List LedgerEntry) :
    ∀ acc : Int, runningTotal acc l = acc + (l.map signedAmount).sum := by
  induction l with
  | nil => intro acc; simp [runningTotal]
  | cons e rest ih =>
      intro acc
      rw [runningTotal_cons, ih, List.map_cons, List.sum_cons]
      ring

theorem runningTotal_perm {l₁ l₂ : List LedgerEntry} (h : l₁.Perm l₂) (acc : Int) :
    runningTotal acc l₁ = runningTotal acc l₂ := by
  rw [runningTotal_eq_sum, runningTotal_eq_sum, (h.map signedAmount).sum_eq]

theorem recalc_zero_entries (pid : Nat) (now : Int) (s : DBState) (p : Party)
    (hp : getParty s pid = some p) (hemp : entriesOf pid s = []) :
    ∃ p', getParty (recalculateBalancesForParty pid now s).state pid = some p'
      ∧ p'.balance = 0 := by
  have hs : sortedEntries pid s = [] := by
    rw [sortedEntries_eq, hemp]
    rfl
  obtain ⟨p', h1, h2⟩ := recalc_balance pid now s p hp
  refine ⟨p', h1, ?_⟩
  rw [h2, hs]
  rfl

theorem getParty_deleteEntry (pid eid : Nat) (s : DBState) :
    getParty (deleteEntry eid s) pid = getParty s pid := rfl

theorem entriesOf_deleteEntry (pid eid : Nat) (s : DBState) :
    entriesOf pid (deleteEntry eid s) = (entriesOf pid s).filter (fun e => decide (e.id ≠ eid)) := by
  show ((s.entries.filter (fun e => decide (e.id ≠ eid))).filter (fun e => decide (e.partyId = pid)))
      = (s.entries.filter (fun e => decide (e.partyId = pid))).filter (fun e => decide (e.id ≠ eid))
  rw [List.filter_comm]

theorem nodup_ids_deleteEntry (eid : Nat) (s : DBState)
    (hN : (s.entries.map LedgerEntry.id).Nodup) :
    ((deleteEntry eid s).entries.map LedgerEntry.id).Nodup :=
  ((List.filter_sublist _).map LedgerEntry.id).nodup hN

/-- In a list fixed under `assignBalances`, each element's `balanceAfter` is
the running total of everything before it plus its own signed amount. -/
theorem mem_assign_fixed {l : List LedgerEntry} (hfix : l = assignBalances 0 l)
    {e : LedgerEntry} (he : e ∈ l) :
    ∃ l₁ l₂, l = l₁ ++ e :: l₂
      ∧ e.balanceAfter = runningTotal 0 l₁ + signedAmount e := by
  obtain ⟨l₁, l₂, rfl⟩ := List.append_of_mem he
  refine ⟨l₁, l₂, rfl, ?_⟩
  have h2 := hfix
  rw [assignBalances_append] at h2
  obtain ⟨_, h4⟩ := List.append_inj h2 (length_assignBalances 0 l₁).symm
  rw [assignBalances, List.cons.injEq] at h4
  exact congrArg LedgerEntry.balanceAfter h4.1

/-! ### The claims -/

/-- C1: after any public mutation of a party's ledger — a recalculation pass,
the add-with-candidate pass of `handleSubmit`, or a `deleteEntry` followed by
recalculation — the stored state satisfies the ledger invariant: with that
party's entries sorted by (date, createdAt) as the source sorts them, each
entry's `balanceAfter` is the signed running sum up to it, and the stored
party balance equals the last entry's `balanceAfter`, or 0 with no entries. -/
theorem C1_invariant_after_public_mutations (pid eid : Nat) (now t : Int) (s : DBState)
    (hN : (s.entries.map LedgerEntry.id).Nodup)
    (h0 : ∀ e ∈ s.entries, e.id ≠ 0) :
    ledgerInvariant pid (recalculateBalancesForParty pid now s).state = true
    ∧ (∀ (amount : Int) (direction : Direction) (note : Option String) (date : Int)
        (newId : Nat) (r : AddResult),
        addEntry pid amount direction note date now newId s = Except.ok r →
        ledgerInvariant pid r.state = true)
    ∧ ledgerInvariant pid (recalculateBalancesForParty pid t (deleteEntry eid s)).state = true := by
  refine ⟨recalc_establishes_invariant pid now s hN, ?_, ?_⟩
  · intro amount direction note date newId r hr
    exact add_establishes_invariant hN h0 hr
  · exact recalc_establishes_invariant pid t (deleteEntry eid s) (nodup_ids_deleteEntry eid s hN)

/-- Witness for C1 on the spec's scenario state. -/
theorem C1_witness :
    ((sampleState.entries.map LedgerEntry.id).Nodup ∧ ∀ e ∈ sampleState.entries, e.id ≠ 0)
    ∧ (ledgerInvariant 1 (recalculateBalancesForParty 1 5 sampleState).state = true
      ∧ (∀ (amount : Int) (direction : Direction) (note : Option String) (date : Int)
          (newId : Nat) (r : AddResult),
          addEntry 1 amount direction note date 5 newId sampleState = Except.ok r →
          ledgerInvariant 1 r.state = true)
      ∧ ledgerInvariant 1 (recalculateBalancesForParty 1 6 (deleteEntry 2 sampleState)).state
          = true) :=
  ⟨⟨by decide, by decide⟩,
    C1_invariant_after_public_mutations 1 2 5 6 sampleState (by decide) (by decide)⟩

/-- C2: the recalculation pass computes running balances by the recurrence
(running balance starts at 0, bumps by the signed amount of each entry in
chronological order), and the final value, written as the party's aggregate,
equals total credits minus total debits over all of that party's entries. -/
theorem C2_final_balance_is_credit_minus_debit (pid : Nat) (now : Int) (s : DBState)
    (p : Party) (hp : getParty s pid = some p) :
    recalcLoop (sortedEntries pid s)
      = (runningTotal 0 (sortedEntries pid s), changes 0 (sortedEntries pid s))
    ∧ ∃ p', getParty (recalculateBalancesForParty pid now s).state pid = some p'
        ∧ p'.balance = sumCredits (entriesOf pid s) - sumDebits (entriesOf pid s) := by
  refine ⟨recalcLoop_eq _, ?_⟩
  obtain ⟨p', h1, h2⟩ := recalc_balance pid now s p hp
  refine ⟨p', h1, ?_⟩
  rw [h2]
  have hperm : (sortedEntries pid s).Perm (entriesOf pid s) := by
    rw [sortedEntries_eq]
    exact stableSort_perm _ _
  rw [runningTotal_perm hperm, runningTotal_eq_sums]
  ring

/-- Witness for C2 on the spec's scenario state. -/
theorem C2_witness :
    getParty sampleState 1 = some { sampleParty with balance := 70 }
    ∧ (recalcLoop (sortedEntries 1 sampleState)
        = (runningTotal 0 (sortedEntries 1 sampleState), changes 0 (sortedEntries 1 sampleState))
      ∧ ∃ p', getParty (recalculateBalancesForParty 1 5 sampleState).state 1 = some p'
          ∧ p'.balance = sumCredits (entriesOf 1 sampleState) - sumDebits (entriesOf 1 sampleState)) :=
  ⟨by decide,
    C2_final_balance_is_credit_minus_debit 1 5 sampleState { sampleParty with balance := 70 }
      (by decide)⟩

/-- C3: the claim says a recalculation for a `partyId` with no matching Party
record aborts the transaction and surfaces an error.  The source's
`recalculateBalancesForParty` has no throw on this path: `db.parties.get`
returns nothing, both conditional branches are skipped, and the transaction
commits — including any queued entry updates.  Evaluated at the failing input
(partyId 1, one orphan entry, no parties): no party write happens, no error is
raised (the model of this path is total by construction, mirroring the
source), and the orphan entry's queued balance update survives. -/
theorem C3_missing_party_commits_silently :
    getParty missingPartyState 1 = none
    ∧ (recalculateBalancesForParty 1 0 missingPartyState).partyWrite = none
    ∧ (recalculateBalancesForParty 1 0 missingPartyState).state.entries
        = [{ orphanEntry with balanceAfter := 5 }] := by
  decide

/-- C5 counterexample: for a party with zero entries and balance already 0,
the second of two consecutive recalculation passes still writes the party row
(`partyWrite = some 0`, `updatedAt` refreshed), so the claim's "performs no
entry or party writes" fails. -/
theorem C5_counterexample :
    (recalculateBalancesForParty 1 7
        (recalculateBalancesForParty 1 5 emptyPartyState).state).partyWrite = some 0
    ∧ (recalculateBalancesForParty 1 7
        (recalculateBalancesForParty 1 5 emptyPartyState).state).state
      ≠ (recalculateBalancesForParty 1 5 emptyPartyState).state := by
  decide

/-- C5 amended: running recalculate twice in a row, the second run produces
the same chronological order and identical `balanceAfter` values and performs
no entry writes; and when the party has at least one entry the second run
performs no party write either and leaves the state identical.  (With zero
entries the party row is rewritten on every pass — see the counterexample.) -/
theorem C5_amended_recalc_idempotent (pid : Nat) (t1 t2 : Int) (s : DBState)
    (hN : (s.entries.map LedgerEntry.id).Nodup) :
    (recalculateBalancesForParty pid t2
        (recalculateBalancesForParty pid t1 s).state).entryWrites = []
    ∧ (recalculateBalancesForParty pid t2
        (recalculateBalancesForParty pid t1 s).state).state.entries
      = (recalculateBalancesForParty pid t1 s).state.entries
    ∧ sortedEntries pid (recalculateBalancesForParty pid t2
        (recalculateBalancesForParty pid t1 s).state).state
      = sortedEntries pid (recalculateBalancesForParty pid t1 s).state
    ∧ (entriesOf pid s ≠ [] →
        (recalculateBalancesForParty pid t2
            (recalculateBalancesForParty pid t1 s).state).state
          = (recalculateBalancesForParty pid t1 s).state
        ∧ (recalculateBalancesForParty pid t2
            (recalculateBalancesForParty pid t1 s).state).partyWrite = none) := by
  obtain ⟨hw, he⟩ := recalc_idempotent_entries pid t1 t2 s hN
  refine ⟨hw, he, ?_, fun hne => recalc_idempotent_full pid t1 t2 s hN hne⟩
  have heo : entriesOf pid (recalculateBalancesForParty pid t2
      (recalculateBalancesForParty pid t1 s).state).state
      = entriesOf pid (recalculateBalancesForParty pid t1 s).state := by
    show ((recalculateBalancesForParty pid t2
        (recalculateBalancesForParty pid t1 s).state).state.entries).filter _
      = ((recalculateBalancesForParty pid t1 s).state.entries).filter _
    rw [he]
  rw [sortedEntries_eq, sortedEntries_eq, heo]

/-- Witness for the amended C5 on the spec's scenario state. -/
theorem C5_witness :
    (sampleState.entries.map LedgerEntry.id).Nodup
    ∧ ((recalculateBalancesForParty 1 7
          (recalculateBalancesForParty 1 5 sampleState).state).entryWrites = []
      ∧ (recalculateBalancesForParty 1 7
          (recalculateBalancesForParty 1 5 sampleState).state).state.entries
        = (recalculateBalancesForParty 1 5 sampleState).state.entries
      ∧ sortedEntries 1 (recalculateBalancesForParty 1 7
          (recalculateBalancesForParty 1 5 sampleState).state).state
        = sortedEntries 1 (recalculateBalancesForParty 1 5 sampleState).state
      ∧ (entriesOf 1 sampleState ≠ [] →
          (recalculateBalancesForParty 1 7
              (recalculateBalancesForParty 1 5 sampleState).state).state
            = (recalculateBalancesForParty 1 5 sampleState).state
          ∧ (recalculateBalancesForParty 1 7
              (recalculateBalancesForParty 1 5 sampleState).state).partyWrite = none)) :=
  ⟨by decide, C5_amended_recalc_idempotent 1 5 7 sampleState (by decide)⟩

/-- C8: recalculating a party with zero entries drives its stored balance to
exactly 0; in particular, deleting a party's last remaining entry and
recalculating leaves the party with balance 0 and no entries (so no stale
`balanceAfter` anywhere). -/
theorem C8_delete_last_entry_drives_balance_to_zero (pid eid : Nat) (now : Int)
    (s : DBState) (p : Party) (e : LedgerEntry)
    (hp : getParty s pid = some p) (hone : entriesOf pid s = [e]) (heid : e.id = eid) :
    (entriesOf pid (deleteEntry eid s) = []
      ∧ ∃ p', getParty (recalculateBalancesForParty pid now (deleteEntry eid s)).state pid
            = some p' ∧ p'.balance = 0)
    ∧ ∀ (pid2 : Nat) (now2 : Int) (s2 : DBState) (p2 : Party),
        getParty s2 pid2 = some p2 → entriesOf pid2 s2 = [] →
        ∃ p', getParty (recalculateBalancesForParty pid2 now2 s2).state pid2 = some p'
          ∧ p'.balance = 0 := by
  have hdel : entriesOf pid (deleteEntry eid s) = [] := by
    rw [entriesOf_deleteEntry, hone, List.filter_cons]
    simp [heid]
  refine ⟨⟨hdel, ?_⟩, ?_⟩
  · exact recalc_zero_entries pid now (deleteEntry eid s) p
      (by rw [getParty_deleteEntry]; exact hp) hdel
  · intro pid2 now2 s2 p2 hp2 hemp2
    exact recalc_zero_entries pid2 now2 s2 p2 hp2 hemp2

/-- Witness for C8 on a single-entry state. -/
theorem C8_witness :
    (getParty singleEntryState 1 = some { sampleParty with balance := -30 }
      ∧ entriesOf 1 singleEntryState = [{ sampleEntryB with balanceAfter := -30 }]
      ∧ ({ sampleEntryB with balanceAfter := -30 } : LedgerEntry).id = 2)
    ∧ ((entriesOf 1 (deleteEntry 2 singleEntryState) = []
      ∧ ∃ p', getParty (recalculateBalancesForParty 1 9 (deleteEntry 2 singleEntryState)).state 1
            = some p' ∧ p'.balance = 0)
      ∧ ∀ (pid2 : Nat) (now2 : Int) (s2 : DBState) (p2 : Party),
          getParty s2 pid2 = some p2 → entriesOf pid2 s2 = [] →
          ∃ p', getParty (recalculateBalancesForParty pid2 now2 s2).state pid2 = some p'
            ∧ p'.balance = 0) :=
  ⟨⟨by decide, by decide, by decide⟩,
    C8_delete_last_entry_drives_balance_to_zero 1 2 9 singleEntryState
      { sampleParty with balance := -30 } { sampleEntryB with balanceAfter := -30 }
      (by decide) (by decide) (by decide)⟩

/-- C9 counterexample: a party with zero entries and stored balance 0 (equal
to the computed aggregate) still gets its row rewritten by a recalculation
pass — `balance` written as 0 again and `updatedAt` refreshed — so the claim's
"leaves the Party row entirely unchanged ... including the zero-entries case"
is false. -/
theorem C9_counterexample :
    (recalculateBalancesForParty 1 99 emptyPartyState).partyWrite = some 0
    ∧ (recalculateBalancesForParty 1 99 emptyPartyState).state.parties
      ≠ emptyPartyState.parties := by
  decide

/-- C9 amended: when the stored balance already equals the computed aggregate
AND the party has at least one entry, the recalculation pass performs no party
write and leaves the parties table unchanged; in the zero-entries case the row
is rewritten on every pass even if the balance is already 0. -/
theorem C9_amended_no_party_write_when_clean (pid : Nat) (now : Int) (s : DBState)
    (p : Party) (hp : getParty s pid = some p)
    (hbal : p.balance = runningTotal 0 (sortedEntries pid s))
    (hne : entriesOf pid s ≠ []) :
    (recalculateBalancesForParty pid now s).partyWrite = none
    ∧ (recalculateBalancesForParty pid now s).state.parties = s.parties :=
  recalc_no_party_write pid now s p hp hbal hne

/-- Witness for the amended C9 on the spec's scenario state. -/
theorem C9_witness :
    (getParty sampleState 1 = some { sampleParty with balance := 70 }
      ∧ ({ sampleParty with balance := 70 } : Party).balance
          = runningTotal 0 (sortedEntries 1 sampleState)
      ∧ entriesOf 1 sampleState ≠ [])
    ∧ ((recalculateBalancesForParty 1 8 sampleState).partyWrite = none
      ∧ (recalculateBalancesForParty 1 8 sampleState).state.parties = sampleState.parties) :=
  ⟨⟨by decide, by decide, by decide⟩,
    C9_amended_no_party_write_when_clean 1 8 sampleState { sampleParty with balance := 70 }
      (by decide) (by decide) (by decide)⟩

/-- C4: the add-with-candidate operation orders persisted entries plus the
candidate chronologically, assigns the candidate the running balance at its
chronological position, updates only existing entries whose `balanceAfter`
changed, inserts the candidate, and updates the party aggregate — all as one
state transition (the model of the single `db.transaction` block). -/
theorem C4_recalculate_with_candidate {pid : Nat} {amount : Int} {direction : Direction}
    {note : Option String} {date now : Int} {newId : Nat} {s : DBState} {r : AddResult}
    (hN : (s.entries.map LedgerEntry.id).Nodup)
    (h0 : ∀ e ∈ s.entries, e.id ≠ 0)
    (h : addEntry pid amount direction note date now newId s = Except.ok r) :
    (r.newEntry.partyId = pid ∧ r.newEntry.amount = amount ∧ r.newEntry.direction = direction
      ∧ r.newEntry.note = note ∧ r.newEntry.date = date ∧ r.newEntry.createdAt = now
      ∧ r.newEntry.id = newId)
    ∧ r.state.entries = applyEntryUpdates r.entryWrites s.entries ++ [r.newEntry]
    ∧ (∀ w ∈ r.entryWrites, ∃ e ∈ entriesOf pid s, e.id = w.1 ∧ e.balanceAfter ≠ w.2)
    ∧ (∃ l₁ l₂, sortedEntries pid r.state = l₁ ++ r.newEntry :: l₂
        ∧ r.newEntry.balanceAfter = runningTotal 0 l₁ + signedAmount r.newEntry)
    ∧ (∃ p', getParty r.state pid = some p'
        ∧ p'.balance = runningTotal 0 (stableSort chronoLE
            (entriesOf pid s ++ [mkCandidate pid amount direction note date now])))
    ∧ ledgerInvariant pid r.state = true := by
  obtain ⟨hamt, p, hgp⟩ := addEntry_ok_elim h
  obtain ⟨hW, hNE, hP, hE⟩ := addEntry_components h
  have hinv := add_establishes_invariant hN h0 h
  refine ⟨?_, ?_, ?_, ?_, ?_, hinv⟩
  · rw [hNE]
    exact ⟨rfl, rfl, rfl, rfl, rfl, rfl, rfl⟩
  · rw [hE, hW]
  · intro w hw
    rw [hW, addSorted_eq] at hw
    obtain ⟨e, he, h1, hnz, h3⟩ := addChanges_mem _ 0 w hw
    have he2 : e ∈ entriesOf pid s ++ [mkCandidate pid amount direction note date now] :=
      (stableSort_perm chronoLE _).mem_iff.mp he
    rcases List.mem_append.mp he2 with h' | h'
    · exact ⟨e, h', h1, h3⟩
    · rw [List.mem_singleton] at h'
      subst h'
      exact absurd rfl hnz
  · obtain ⟨hfix, _⟩ := ledgerInvariant_elim pid r.state hinv
    have hmem : r.newEntry ∈ sortedEntries pid r.state := by
      rw [mem_sortedEntries_iff]
      apply List.mem_filter.mpr
      constructor
      · rw [hE]
        exact List.mem_append_right _ (List.mem_singleton_self _)
      · rw [hNE]
        simp [mkCandidate]
    exact mem_assign_fixed hfix hmem
  · exact ⟨_, getParty_addEntry hgp h, rfl⟩

/-- C6: starting from a state satisfying the ledger invariant, inserting an
entry dated strictly before the most recent existing entry shifts the
`balanceAfter` of exactly the entries chronologically after the insertion
point by the candidate's signed amount (every one of them is written), while
entries before the insertion point are not written at all. -/
theorem C6_backdated_insertion_shifts_later_entries {pid : Nat} {amount : Int}
    {direction : Direction} {note : Option String} {date now : Int} {newId : Nat}
    {s : DBState} {r : AddResult}
    (hInv : ledgerInvariant pid s = true)
    (hN : (s.entries.map LedgerEntry.id).Nodup)
    (h0 : ∀ e ∈ s.entries, e.id ≠ 0)
    (hdate : ∃ e ∈ entriesOf pid s, date < e.date)
    (h : addEntry pid amount direction note date now newId s = Except.ok r) :
    ∃ u v, sortedEntries pid s = u ++ v
      ∧ (∀ e ∈ u, chronoLE e (mkCandidate pid amount direction note date now) = true)
      ∧ (∀ e ∈ v, chronoLE e (mkCandidate pid amount direction note date now) = false)
      ∧ v ≠ []
      ∧ r.entryWrites = v.map (fun e => (e.id,
          e.balanceAfter + signedAmount (mkCandidate pid amount direction note date now)))
      ∧ r.state.entries = s.entries.map (fun e =>
          if decide (e.partyId = pid)
              && !chronoLE e (mkCandidate pid amount direction note date now) then
            { e with balanceAfter := e.balanceAfter
                + signedAmount (mkCandidate pid amount direction note date now) }
          else e) ++ [r.newEntry] := by
  obtain ⟨hwrites, hstate⟩ := add_backdate_decomp hInv hN h0 h
  refine ⟨(sortedEntries pid s).takeWhile
      (fun x => chronoLE x (mkCandidate pid amount direction note date now)),
    (sortedEntries pid s).dropWhile
      (fun x => chronoLE x (mkCandidate pid amount direction note date now)),
    (List.takeWhile_append_dropWhile _ _).symm, ?_, ?_, ?_, hwrites, hstate⟩
  · intro e he
    have hh := List.mem_takeWhile_imp he
    exact hh
  · exact mem_dropWhile_chrono _ _ (by
      rw [sortedEntries_eq]
      exact pairwise_stableSort chronoLE_total chronoLE_trans _)
  · obtain ⟨e₀, he₀, hd₀⟩ := hdate
    intro hnil
    have hmem : e₀ ∈ sortedEntries pid s := (mem_sortedEntries_iff pid s e₀).mpr he₀
    have hfalse : chronoLE e₀ (mkCandidate pid amount direction note date now) = false := by
      simp only [chronoLE, mkCandidate, Bool.or_eq_false_iff, Bool.and_eq_false_iff,
        decide_eq_false_iff_not]
      constructor
      · omega
      · left
        omega
    rw [← List.takeWhile_append_dropWhile
        (fun x => chronoLE x (mkCandidate pid amount direction note date now))
        (sortedEntries pid s), List.mem_append] at hmem
    rcases hmem with h' | h'
    · have hh := List.mem_takeWhile_imp h'
      rw [hfalse] at hh
      exact absurd hh (by simp)
    · rw [hnil] at h'
      exact absurd h' (by simp)

/-- C7: starting from a state satisfying the ledger invariant, inserting an
entry dated after all existing entries performs zero updates to existing
entries — only the insertion and the party aggregate write happen; and in
general a recalculation pass rewrites only the `balanceAfter` field, and only
of entries whose recomputed value differs from the stored one. -/
theorem C7_append_at_end_minimal_writes {pid : Nat} {amount : Int}
    {direction : Direction} {note : Option String} {date now : Int} {newId : Nat}
    {s : DBState} {r : AddResult}
    (hInv : ledgerInvariant pid s = true)
    (hN : (s.entries.map LedgerEntry.id).Nodup)
    (h0 : ∀ e ∈ s.entries, e.id ≠ 0)
    (hdate : ∀ e ∈ entriesOf pid s, e.date < date)
    (h : addEntry pid amount direction note date now newId s = Except.ok r) :
    r.entryWrites = []
    ∧ r.state.entries = s.entries ++ [r.newEntry]
    ∧ (∃ p', getParty r.state pid = some p'
        ∧ p'.balance = runningTotal 0 (stableSort chronoLE
            (entriesOf pid s ++ [mkCandidate pid amount direction note date now])))
    ∧ (∀ (pid2 : Nat) (now2 : Int) (s2 : DBState),
        (recalculateBalancesForParty pid2 now2 s2).state.entries.map eraseBalance
          = s2.entries.map eraseBalance
        ∧ ∀ w ∈ (recalculateBalancesForParty pid2 now2 s2).entryWrites,
            ∃ e ∈ entriesOf pid2 s2, e.id = w.1 ∧ e.balanceAfter ≠ w.2) := by
  obtain ⟨hamt, p, hgp⟩ := addEntry_ok_elim h
  obtain ⟨hwrites, hstate⟩ := add_backdate_decomp hInv hN h0 h
  have hvnil : (sortedEntries pid s).dropWhile
      (fun x => chronoLE x (mkCandidate pid amount direction note date now)) = [] := by
    rw [List.dropWhile_eq_nil_iff]
    intro e he
    have he' : e ∈ entriesOf pid s := (mem_sortedEntries_iff pid s e).mp he
    have hd := hdate e he'
    simp only [chronoLE, mkCandidate, Bool.or_eq_true, decide_eq_true_eq]
    left
    exact hd
  rw [hvnil] at hwrites
  simp only [List.map_nil] at hwrites
  refine ⟨hwrites, ?_, ⟨_, getParty_addEntry hgp h, rfl⟩, ?_⟩
  · obtain ⟨hW, _, _, hE⟩ := addEntry_components h
    have hz : addChanges 0 (addSorted pid amount direction note date now s) = [] := by
      rw [← hW, hwrites]
    rw [hE, hz]
    rfl
  · intro pid2 now2 s2
    constructor
    · rw [recalc_state_entries, applyEntryUpdates_eq_map, List.map_map]
      apply List.map_congr_left
      intro e _
      exact eraseBalance_applyUpds _ e
    · intro w hw
      rw [recalc_entryWrites] at hw
      obtain ⟨e, he, h1, h2⟩ := changes_mem _ 0 w hw
      exact ⟨e, (mem_sortedEntries_iff pid2 s2 e).mp he, h1, h2⟩

theorem editEntryUpdate_proj (eid : Nat) (amount : Int) (direction : Direction)
    (note : Option String) (date : Int) (es : List LedgerEntry) :
    (editEntryUpdate eid amount direction note date es).map
        (fun e => (e.id, e.partyId, e.createdAt, e.balanceAfter))
      = es.map (fun e => (e.id, e.partyId, e.createdAt, e.balanceAfter)) := by
  rw [editEntryUpdate, List.map_map]
  apply List.map_congr_left
  intro e _
  by_cases h : e.id = eid
  · simp [h]
  · simp [h]

theorem applyEdits_proj (ops : List EditOp) :
    ∀ es : List LedgerEntry,
      (applyEdits ops es).map (fun e => (e.id, e.partyId, e.createdAt, e.balanceAfter))
        = es.map (fun e => (e.id, e.partyId, e.createdAt, e.balanceAfter)) := by
  induction ops with
  | nil => intro es; rfl
  | cons op ops ih =>
      intro es
      rw [show applyEdits (op :: ops) es
          = applyEdits ops (editEntryUpdate op.entryId op.amount op.direction op.note op.date es)
          from rfl]
      rw [ih, editEntryUpdate_proj]

theorem chronoLE_same_date {a b : LedgerEntry} (h : a.date = b.date) :
    chronoLE a b = decide (a.createdAt ≤ b.createdAt) := by
  rw [chronoLE, h]
  simp

/-- C10: an edit rewrites only the amount, direction, note and date of the
targeted entry; id, partyId, createdAt (and balanceAfter, pending the separate
recalculation) are untouched, so for two entries sharing a date the relative
chronological rank — decided by createdAt — survives any sequence of edits. -/
theorem C10_edit_preserves_identity_fields (ops : List EditOp) (es : List LedgerEntry) :
    (applyEdits ops es).map (fun e => (e.id, e.partyId, e.createdAt, e.balanceAfter))
      = es.map (fun e => (e.id, e.partyId, e.createdAt, e.balanceAfter))
    ∧ (applyEdits ops es).length = es.length
    ∧ ∀ (i j : Nat) (hi : i < (applyEdits ops es).length) (hj : j < (applyEdits ops es).length)
        (hi2 : i < es.length) (hj2 : j < es.length),
        ((applyEdits ops es).get ⟨i, hi⟩).date = ((applyEdits ops es).get ⟨j, hj⟩).date →
        chronoLE ((applyEdits ops es).get ⟨i, hi⟩) ((applyEdits ops es).get ⟨j, hj⟩)
          = decide ((es.get ⟨i, hi2⟩).createdAt ≤ (es.get ⟨j, hj2⟩).createdAt) := by
  have hmap := applyEdits_proj ops es
  have hlen : (applyEdits ops es).length = es.length := by
    have hl := congrArg List.length hmap
    simpa using hl
  refine ⟨hmap, hlen, ?_⟩
  intro i j hi hj hi2 hj2 hdate
  have hproj : ∀ (k : Nat) (hk : k < (applyEdits ops es).length) (hk2 : k < es.length),
      ((applyEdits ops es).get ⟨k, hk⟩).createdAt = (es.get ⟨k, hk2⟩).createdAt := by
    intro k hk hk2
    have h1 := congrArg (fun l => l[k]?) hmap
    simp only [List.getElem?_map] at h1
    rw [List.getElem?_eq_getElem hk, List.getElem?_eq_getElem hk2] at h1
    simp only [Option.map_some'] at h1
    rw [Option.some.injEq, Prod.mk.injEq, Prod.mk.injEq, Prod.mk.injEq] at h1
    rw [List.get_eq_getElem, List.get_eq_getElem]
    exact h1.2.2.1
  rw [chronoLE_same_date hdate, hproj i hi hi2, hproj j hj hj2]

/-- Witness for C4: the spec's back-dated scenario insertion. -/
theorem C4_witness :
    ((sampleState.entries.map LedgerEntry.id).Nodup
      ∧ (∀ e ∈ sampleState.entries, e.id ≠ 0)
      ∧ addEntry 1 20 Direction.credit none 20 3 3 sampleState = Except.ok backdatedAddResult)
    ∧ ((backdatedAddResult.newEntry.partyId = 1
        ∧ backdatedAddResult.newEntry.amount = 20
        ∧ backdatedAddResult.newEntry.direction = Direction.credit
        ∧ backdatedAddResult.newEntry.note = none
        ∧ backdatedAddResult.newEntry.date = 20
        ∧ backdatedAddResult.newEntry.createdAt = 3
        ∧ backdatedAddResult.newEntry.id = 3)
      ∧ backdatedAddResult.state.entries
          = applyEntryUpdates backdatedAddResult.entryWrites sampleState.entries
            ++ [backdatedAddResult.newEntry]
      ∧ (∀ w ∈ backdatedAddResult.entryWrites,
          ∃ e ∈ entriesOf 1 sampleState, e.id = w.1 ∧ e.balanceAfter ≠ w.2)
      ∧ (∃ l₁ l₂, sortedEntries 1 backdatedAddResult.state
            = l₁ ++ backdatedAddResult.newEntry :: l₂
          ∧ backdatedAddResult.newEntry.balanceAfter
            = runningTotal 0 l₁ + signedAmount backdatedAddResult.newEntry)
      ∧ (∃ p', getParty backdatedAddResult.state 1 = some p'
          ∧ p'.balance = runningTotal 0 (stableSort chronoLE
              (entriesOf 1 sampleState ++ [mkCandidate 1 20 Direction.credit none 20 3])))
      ∧ ledgerInvariant 1 backdatedAddResult.state = true) :=
  ⟨⟨by decide, by decide, rfl⟩,
    C4_recalculate_with_candidate (by decide) (by decide) rfl⟩

/-- Witness for C6: the spec's back-dated scenario insertion. -/
theorem C6_witness :
    (ledgerInvariant 1 sampleState = true
      ∧ (sampleState.entries.map LedgerEntry.id).Nodup
      ∧ (∀ e ∈ sampleState.entries, e.id ≠ 0)
      ∧ (∃ e ∈ entriesOf 1 sampleState, (20 : Int) < e.date)
      ∧ addEntry 1 20 Direction.credit none 20 3 3 sampleState = Except.ok backdatedAddResult)
    ∧ (∃ u v, sortedEntries 1 sampleState = u ++ v
        ∧ (∀ e ∈ u, chronoLE e (mkCandidate 1 20 Direction.credit none 20 3) = true)
        ∧ (∀ e ∈ v, chronoLE e (mkCandidate 1 20 Direction.credit none 20 3) = false)
        ∧ v ≠ []
        ∧ backdatedAddResult.entryWrites = v.map (fun e => (e.id,
            e.balanceAfter + signedAmount (mkCandidate 1 20 Direction.credit none 20 3)))
        ∧ backdatedAddResult.state.entries = sampleState.entries.map (fun e =>
            if decide (e.partyId = 1)
                && !chronoLE e (mkCandidate 1 20 Direction.credit none 20 3) then
              { e with balanceAfter := e.balanceAfter
                  + signedAmount (mkCandidate 1 20 Direction.credit none 20 3) }
            else e) ++ [backdatedAddResult.newEntry]) :=
  ⟨⟨by decide, by decide, by decide, ⟨sampleEntryB, by decide, by decide⟩, rfl⟩,
    C6_backdated_insertion_shifts_later_entries (by decide) (by decide) (by decide)
      ⟨sampleEntryB, by decide, by decide⟩ rfl⟩

/-- Witness for C7: appending an entry dated after everything. -/
theorem C7_witness :
    (ledgerInvariant 1 sampleState = true
      ∧ (sampleState.entries.map LedgerEntry.id).Nodup
      ∧ (∀ e ∈ sampleState.entries, e.id ≠ 0)
      ∧ (∀ e ∈ entriesOf 1 sampleState, e.date < (40 : Int))
      ∧ addEntry 1 20 Direction.credit none 40 3 3 sampleState = Except.ok appendAddResult)
    ∧ (appendAddResult.entryWrites = []
      ∧ appendAddResult.state.entries = sampleState.entries ++ [appendAddResult.newEntry]
      ∧ (∃ p', getParty appendAddResult.state 1 = some p'
          ∧ p'.balance = runningTotal 0 (stableSort chronoLE
              (entriesOf 1 sampleState ++ [mkCandidate 1 20 Direction.credit none 40 3])))
      ∧ (∀ (pid2 : Nat) (now2 : Int) (s2 : DBState),
          (recalculateBalancesForParty pid2 now2 s2).state.entries.map eraseBalance
            = s2.entries.map eraseBalance
          ∧ ∀ w ∈ (recalculateBalancesForParty pid2 now2 s2).entryWrites,
              ∃ e ∈ entriesOf pid2 s2, e.id = w.1 ∧ e.balanceAfter ≠ w.2)) :=
  ⟨⟨by decide, by decide, by decide, by decide, rfl⟩,
    C7_append_at_end_minimal_writes (by decide) (by decide) (by decide) (by decide) rfl⟩

/-- Witness for C10: one edit over a same-day pair; rank still decided by the
original `createdAt` values. -/
theorem C10_witness :
    (((applyEdits [sampleEdit] sameDayEntries).get ⟨0, by decide⟩).date
        = ((applyEdits [sampleEdit] sameDayEntries).get ⟨1, by decide⟩).date)
    ∧ chronoLE ((applyEdits [sampleEdit] sameDayEntries).get ⟨0, by decide⟩)
        ((applyEdits [sampleEdit] sameDayEntries).get ⟨1, by decide⟩)
      = decide ((sameDayEntries.get ⟨0, by decide⟩).createdAt
          ≤ (sameDayEntries.get ⟨1, by decide⟩).createdAt) :=
  ⟨by decide,
    (C10_edit_preserves_identity_fields [sampleEdit] sameDayEntries).2.2 0 1
      (by decide) (by decide) (by decide) (by decide) (by decide)⟩
